import Mathlib

/-!
Verification of the pdm install/uninstall engine.

Shallow embedding of `src/pdm/installers/uninstallers.py` and
`src/pdm/installers/installers.py`. Paths and file contents are modelled as
`List Char` (the code runs on posix, where `os.path.normcase` is the identity
and `os.sep` is `'/'`). The filesystem is a finite association list from
absolute file paths to file bytes; directories exist exactly when some file
lies beneath them, which matches everything the modelled code observes via
`os.path.exists`, `os.path.isdir` and `os.walk`. The code under model never
creates or follows symbolic links on the paths it manipulates, so links are
not modelled.
-/

set_option maxRecDepth 4000

abbrev Str := List Char

/-- Python `s.startswith(pre)`. -/
def str_startswith (s pre : Str) : Bool := pre.isPrefixOf s

/-- Python `s.endswith(suf)`. -/
def str_endswith (s suf : Str) : Bool := suf.isSuffixOf s

/-- Python `needle in hay` for strings (substring test). -/
def str_contains_sub (needle hay : Str) : Bool :=
  match hay with
  | [] => needle.isEmpty
  | _ :: t => needle.isPrefixOf hay || str_contains_sub needle t

/-- posixpath.split: split `p` at the last `'/'`; the head keeps no trailing
slashes unless it consists only of slashes. -/
def os_path_split (p : Str) : Str × Str :=
  let tailLen := (p.rtakeWhile (fun c => c ≠ '/')).length
  let head := p.take (p.length - tailLen)
  let tl := p.drop (p.length - tailLen)
  let head' := if head = [] ∨ head.all (fun c => c = '/') then head
               else head.rdropWhile (fun c => c = '/')
  (head', tl)

/-- os.path.split(p)[0]. -/
def os_path_dirname (p : Str) : Str := (os_path_split p).1

/-- posixpath.join for two components. -/
def os_path_join2 (a b : Str) : Str :=
  if str_startswith b ['/'] then b
  else if a = [] ∨ str_endswith a ['/'] then a ++ b
  else a ++ ['/'] ++ b

/-- The path with a trailing separator (used to test "lies under directory"). -/
def withSlash (p : Str) : Str := if str_endswith p ['/'] then p else p ++ ['/']

/-- posixpath.splitext: split off the extension of the last path component;
an extension needs a dot preceded by at least one non-dot character in the
basename. -/
def os_path_splitext (p : Str) : Str × Str :=
  let base := p.rtakeWhile (fun c => c ≠ '/')
  let afterDot := (base.rtakeWhile (fun c => c ≠ '.')).length
  if afterDot < base.length ∧ (base.take (base.length - afterDot - 1)).any (fun c => c ≠ '.')
  then (p.take (p.length - (afterDot + 1)), p.drop (p.length - (afterDot + 1)))
  else (p, [])

/-- Python str.splitlines restricted to the line breaks the modelled files can
contain (`\n`, `\r\n`, `\r`). -/
def str_splitlines (s : Str) : List Str :=
  go s []
where
  go : Str → Str → List Str
    | [], acc => if acc = [] then [] else [acc.reverse]
    | '\r' :: '\n' :: rest, acc => acc.reverse :: go rest []
    | '\r' :: rest, acc => acc.reverse :: go rest []
    | '\n' :: rest, acc => acc.reverse :: go rest []
    | c :: rest, acc => go rest (c :: acc)

/-- Python str.strip() (whitespace on both ends). -/
def str_strip (s : Str) : Str :=
  let ws : Char → Bool := fun c => c = ' ' ∨ c = '\t' ∨ c = '\n' ∨ c = '\r' ∨ c = '\x0b' ∨ c = '\x0c'
  (s.dropWhile ws).rdropWhile ws

/-- Python list.remove: drop the first occurrence, `none` models ValueError. -/
def list_remove (l : List Str) (x : Str) : Option (List Str) :=
  match l with
  | [] => none
  | a :: rest => if a = x then some rest else (list_remove rest x).map (a :: ·)

/-- Pathlib-style path components, root dropped: parts of `/a//b` are `a, b`. -/
def path_parts (p : Str) : List Str := (List.splitOn '/' p).filter (fun s => s ≠ [])

section Filesystem

/-- A filesystem snapshot: each entry is (absolute file path, file bytes). -/
abbrev FS := List (Str × Str)

def fs_keys (fs : FS) : List Str := fs.map (fun e => e.1)

/-- Content of the file at `p`, if a file is there. -/
def fs_lookup (fs : FS) (p : Str) : Option Str :=
  (fs.find? (fun e => e.1 = p)).map (fun e => e.2)

/-- open(p, "wb").write(c): create or truncate the file at `p`. -/
def fs_write (fs : FS) (p c : Str) : FS :=
  fs.filter (fun e => e.1 ≠ p) ++ [(p, c)]

/-- os.path.exists on our snapshot: a file is at `p`, or some file lies under
`p` taken as a directory (a trailing-slash path only exists as a directory). -/
def fs_exists (fs : FS) (p : Str) : Bool :=
  (!str_endswith p ['/'] && (fs_keys fs).contains p)
    || (fs_keys fs).any (fun f => str_startswith f (withSlash p))

/-- os.path.isdir: some file lies strictly below `p`. -/
def fs_isdir (fs : FS) (p : Str) : Bool :=
  (fs_keys fs).any (fun f => str_startswith f (withSlash p))

/-- The paths that `old` occupies when removed or renamed as a unit: the file
at `old` itself and every file below `old` taken as a directory. -/
def covers (old p : Str) : Bool := p = old || str_startswith p (withSlash old)

/-- Snapshot well-formedness: one entry per path, no file lies under another
file, and file paths do not end in a separator. -/
def FSWellFormed (fs : FS) : Prop :=
  (fs_keys fs).Nodup
    ∧ (∀ p ∈ fs_keys fs, ∀ q ∈ fs_keys fs, ¬ str_startswith q (withSlash p))
    ∧ (∀ p ∈ fs_keys fs, ¬ str_endswith p ['/'])

end Filesystem

section CompressForRename

/-- Comparison key of `sorted(..., key=len)`. -/
def byLen (a b : Str) : Prop := a.length ≤ b.length

instance : DecidableRel byLen := fun a b => Nat.decLe a.length b.length

instance : IsTotal Str byLen := ⟨fun a b => Nat.le_total a.length b.length⟩

instance : IsTrans Str byLen := ⟨fun _ _ _ => Nat.le_trans⟩

/-- Body of the loop `for root in unchecked` of `compress_for_rename`
(uninstallers.py lines 65-80). State is (remaining, wildcards). `disk` is the
list of files on disk; `os.walk(root)` enumerates exactly the files below the
directory `root` — those whose path extends `root` across a separator, i.e.
starts with `withSlash root` — while the wildcard recorded is the literal
string `root + os.sep`. The two spellings agree except when `root` itself
ends in the separator (the filesystem root `/`, whose walk spans every
absolute path but whose wildcard is the literal `//`). -/
def cfr_step (disk : List Str) (st : List Str × List Str) (root : Str) : List Str × List Str :=
  if st.2.any (fun w => str_startswith root w) then st
  else
    let all_files := disk.filter (fun f => str_startswith f (withSlash root))
    if all_files.all (fun f => st.1.contains f) then
      (st.1.filter (fun f => ¬ all_files.contains f), (root ++ ['/']) :: st.2)
    else st

/-- The loop of `compress_for_rename`: `unchecked` is the set of parents of
the input paths sorted by ascending length (the processing order of roots of
equal length does not influence the result, so a deterministic stable sort
stands in for Python's); the initial remaining set is the input path set.
On posix `os.path.normcase` is the identity, so the case-folding dictionary
`case_map` drops out of the model. -/
def cfr_fold (disk paths : List Str) : List Str × List Str :=
  let remaining := paths.dedup
  let unchecked := List.insertionSort byLen ((paths.map os_path_dirname).dedup)
  unchecked.foldl (cfr_step disk) (remaining, [])

/-- uninstallers.py lines 50-82: `compress_for_rename(paths)` evaluated
against the files on `disk`; the result is remaining ∪ wildcards. -/
def compress_for_rename (disk paths : List Str) : List Str :=
  (cfr_fold disk paths).1 ++ (cfr_fold disk paths).2

/-- The directory a wildcard entry stands for: a wildcard is the literal
string `root + os.sep`, and the files it swallowed are those `os.walk(root)`
enumerated — the ones starting with `withSlash root`. For every root except
the filesystem root the two strings coincide; the root directory's wildcard
is the literal `//`, which no canonical absolute path starts with, while its
walk spans the whole disk. -/
def wildWalk (w : Str) : Str := withSlash w.dropLast

end CompressForRename

section Installers

/-- Top-level component of a zip entry name: `name.split("/")[0]`. -/
def topLevelName (name : Str) : Str := (List.splitOn '/' name).headD []

/-- installers.py lines 28-42, `WheelFile.dist_info_dir`: scan the archive's
entry names for the first whose top-level component ends in `.dist-info`;
`none` models the `InvalidWheelSource` raised when the generator is empty. -/
def dist_info_dir (namelist : List Str) : Option Str :=
  (namelist.find? (fun name => str_endswith (topLevelName name) (".dist-info".data))).map
    topLevelName

/-- installers.py lines 45-52, `InstallDestination.write_to_fs`: resolve the
target below the named scheme root, unlink any file already there, then let
the base class write the stream (create or truncate at the target). -/
def write_to_fs (scheme_dict : String → Str) (fs : FS) (scheme : String)
    (path : Str) (stream : Str) : FS :=
  let target_path := os_path_join2 (scheme_dict scheme) path
  let fs' := if fs_exists fs target_path then fs.filter (fun e => e.1 ≠ target_path) else fs
  fs' ++ [(target_path, stream)]

/-- installers.py lines 117-131, `install_wheel_with_cache`, reduced to the
cache-entry life cycle: the state is the set of cache entry directories that
already hold a payload; the Bool records whether a full direct install
(`install_wheel` into the cache entry's own scheme) was performed. -/
def install_wheel_with_cache (cacheDirs : List Str) (wheel_stem : Str) : List Str × Bool :=
  if cacheDirs.contains wheel_stem then (cacheDirs, false)
  else (wheel_stem :: cacheDirs, true)

/-- Installing the same archive into `n` consuming environments in sequence;
returns the final cache state and how many full payload installs happened. -/
def install_into_envs (cacheDirs : List Str) (stem : Str) : Nat → List Str × Nat
  | 0 => (cacheDirs, 0)
  | n + 1 =>
    let r := install_wheel_with_cache cacheDirs stem
    let rest := install_into_envs r.1 stem n
    (rest.1, (if r.2 then 1 else 0) + rest.2)

/-- One write performed by the link install: (scheme name, path below that
scheme root, bytes written). -/
abbrev SchemeWrite := String × Str × Str

/-- installers.py lines 134-213, `_install_from_cache`, as the list of writes
it performs into the real environment. External collaborators from the
`installer` library are parameters: `ws` is `destination.write_script` (one
write per parsed entry point, always into the scripts scheme), `det` is
`_determine_scheme` (scheme and destination path of a copied record entry),
`root_scheme` is `_process_WHEEL_file`'s result ("purelib" when the wheel
declares Root-Is-Purelib, "platlib" otherwise). `entries` are the record
elements of `source.get_contents()` with their streams, `cache_purelib` is
`package_cache.scheme()["purelib"]`, `cache_path` the cache entry directory,
`norm_name` the normalized candidate name and `installer_version_line` the
`installer {version}` identity bytes. -/
def _install_from_cache
    (ws : String × String × String × String → SchemeWrite)
    (det : Str → String × Str)
    (dist_info_directory : Str) (root_scheme : String)
    (has_entry_points : Bool) (entry_points : List (String × String × String × String))
    (entries : List (Str × Str))
    (cache_purelib cache_path norm_name installer_version_line : Str) : List SchemeWrite :=
  let record_file_path := os_path_join2 dist_info_directory ("RECORD".data)
  (if has_entry_points then entry_points.map ws else [])
    ++ entries.filterMap (fun e =>
        if e.1 = record_file_path
            ∨ ¬ (str_endswith e.1 (".pth".data) ∨ str_startswith e.1 dist_info_directory)
        then none
        else some ((det e.1).1, (det e.1).2, e.2))
    ++ [(root_scheme, norm_name ++ ".pth".data, cache_purelib ++ ['\n'])]
    ++ [(root_scheme, os_path_join2 dist_info_directory ("INSTALLER".data), installer_version_line),
        (root_scheme, os_path_join2 dist_info_directory ("REFER_TO".data), cache_path)]

end Installers

section Uninstallers

/-- uninstallers.py lines 96-103, `_cache_file_from_source`: the legacy
co-located `.pyc` plus every `__pycache__` entry matching
`glob(base[:-3] + ".*.pyc")` (the `*` of glob matches any characters except a
separator, possibly none). Called only on paths ending in `.py`. -/
def _cache_file_from_source (fs : FS) (py_file : Str) : List Str :=
  let py2_cache := py_file.take (py_file.length - 3) ++ ".pyc".data
  (if (fs_keys fs).contains py2_cache then [py2_cache] else [])
    ++ (let pb := os_path_split py_file
        let cache_dir := os_path_join2 pb.1 ("__pycache__".data)
        let pat := pb.2.take (pb.2.length - 3) ++ ['.']
        (fs_keys fs).filter (fun f =>
          str_startswith f (withSlash cache_dir)
            && (let nm := f.drop (withSlash cache_dir).length
                !nm.contains '/' && str_startswith nm pat
                  && str_endswith nm (".pyc".data) && pat.length + 4 ≤ nm.length)))

/-- The removal plan a `BaseRemovePaths` accumulates: owned paths, registry
lines to drop, and the cache-linkage pointer found while scanning. -/
structure RPState where
  paths : List Str
  pth_entries : List Str
  refer_to : Option Str
deriving Repr, DecidableEq

/-- uninstallers.py line 191, `add_pth`. -/
def add_pth (st : RPState) (line : Str) : RPState :=
  { st with pth_entries := st.pth_entries ++ [line] }

/-- uninstallers.py lines 194-202, `add_path`: record the path (inputs are
absolute and normalized, so `expanduser`/`abspath`/posix `normcase` are the
identity), pull in bytecode caches for a `.py` file, and read a `REFER_TO`
pointer; `Except.error` models the `open` of a missing `REFER_TO` raising. -/
def add_path (fs : FS) (st : RPState) (path : Str) : Except Str RPState :=
  let st := { st with paths := st.paths ++ [path] }
  if str_endswith path (".py".data) then
    .ok { st with paths := st.paths ++ _cache_file_from_source fs path }
  else if (os_path_split path).2 = ("REFER_TO".data) then
    match fs_lookup fs path with
    | none => .error ("cannot open ".data ++ path)
    | some content =>
      let line := str_strip ((str_splitlines content).headD [])
      .ok (if line ≠ [] then { st with refer_to := some line } else st)
  else .ok st

/-- uninstallers.py lines 23-30, `get_egg_link_path`. -/
def get_egg_link_path (fs : FS) (project_name site_packages : Str) : Option Str :=
  let egglink := os_path_join2 site_packages project_name ++ ".egg-link".data
  if (fs_keys fs).contains egglink then some egglink else none

/-- The installed distribution's metadata as `from_dist` consumes it.
`is_editable` is `pdm.utils.is_dist_editable(dist)`, `record_rows` the first
column of the RECORD rows, `scripts_meta` the entries of the metadata
`scripts` directory when present, and the script lists the entry-point names
(on posix `_script_names` yields exactly the name). -/
structure DistInfo where
  project_name : Str
  location : Str
  is_editable : Bool
  record_rows : List Str
  has_scripts_dir : Bool
  scripts_meta : List Str
  console_scripts : List Str
  gui_scripts : List Str

/-- The `UninstallError` message of uninstallers.py lines 154-157. -/
def mismatch_msg (egg_link_path project_name location : Str) : Str :=
  "The link pointer in ".data ++ egg_link_path ++ " doesn't match the location of ".data
    ++ project_name ++ "(at ".data ++ location

/-- uninstallers.py lines 137-189, `BaseRemovePaths.from_dist` on posix:
build the removal plan for a distribution. The editable branch resolves the
egg-link, validates its pointer against the recorded location and raises on
mismatch; the regular branch walks the RECORD rows; both then add script
paths under the scripts root. -/
def from_dist (fs : FS) (purelib_dir bin_dir : Str) (dist : DistInfo) :
    Except Str RPState := do
  let inst : RPState := ⟨[], [], none⟩
  let inst ←
    if dist.is_editable then
      match get_egg_link_path fs dist.project_name purelib_dir with
      | none => pure inst    -- "No egg link is found": warning logged, nothing added
      | some egg_link_path =>
        match fs_lookup fs egg_link_path with
        | none => .error ("cannot open ".data ++ egg_link_path)
        | some content =>
          let link_pointer := str_strip ((str_splitlines content).headD [])
          if link_pointer ≠ dist.location then
            .error (mismatch_msg egg_link_path dist.project_name dist.location)
          else do
            let inst ← add_path fs inst egg_link_path
            pure (add_pth inst link_pointer)
    else
      dist.record_rows.foldlM (fun inst filename => do
        let location := os_path_join2 dist.location filename
        let inst ← add_path fs inst location
        let se := os_path_splitext location
        if se.2 = (".py".data) then
          -- ".pyc files are added by add_path()"
          add_path fs inst (se.1 ++ ".pyo".data)
        else pure inst) inst
  let inst ←
    if dist.has_scripts_dir then
      dist.scripts_meta.foldlM (fun inst script =>
        add_path fs inst (os_path_join2 bin_dir script)) inst
    else pure inst
  (dist.console_scripts ++ dist.gui_scripts).foldlM (fun inst s =>
    add_path fs inst (os_path_join2 bin_dir s)) inst

/-- uninstallers.py lines 106-113, `_get_file_root`: the top-level directory
below `base` that `path` falls under (`base` itself, with a trailing
separator via `os.path.join(base, "")`, when `path` is a direct child);
`none` models `Path.relative_to` raising for a path outside `base`. -/
def _get_file_root (path base : Str) : Option Str :=
  let pp := path_parts path
  let bp := path_parts base
  if bp.isPrefixOf pp then
    let rel := pp.drop bp.length
    let root := match rel with
      | _ :: _ :: _ => rel.headD []
      | _ => []
    some (os_path_join2 base root)
  else none

/-- uninstallers.py lines 225-235, `_remove_pth`: nothing to do without
registry entries; otherwise read and keep the registry's original bytes,
detect the line-ending convention, drop each entry (`list.remove`; `none`
models the ValueError on a missing line or the read of a missing file), and
rewrite the file. -/
def _remove_pth (pth_file : Str) (pth_entries : List Str) (fs : FS) :
    Option (Option Str × FS) :=
  if pth_entries = [] then some (none, fs)
  else
    match fs_lookup fs pth_file with
    | none => none
    | some saved_pth =>
      let endline := if str_contains_sub "\r\n".data saved_pth then "\r\n".data else "\n".data
      match pth_entries.foldlM (fun lines item => list_remove lines item)
          (str_splitlines saved_pth) with
      | none => none
      | some lines =>
        some (some saved_pth, fs_write fs pth_file (List.intercalate endline lines ++ endline))

/-- One iteration of the loop of `_stash_files` (uninstallers.py lines
240-266). A `.pyc` path is unlinked in place; the source has no `continue`
after that unlink, so for a `.pyc` below the packages root control reaches
`renames(old_path, new_path)` whose source no longer exists and the call
raises (`none`). Other existing paths are renamed into a per-root temporary
directory; the stash record keeps, for each renamed path, the files it
carried away keyed by their original absolute paths (the temporary area is
held outside the modelled environment tree and is only read back by
rollback, so its layout is not part of the snapshot). -/
def stash_step (pfx : Str) (acc : Option (FS × List (Str × FS))) (old_path : Str) :
    Option (FS × List (Str × FS)) :=
  match acc with
  | none => none
  | some (fs, stashed) =>
    if ¬ fs_exists fs old_path then some (fs, stashed)
    else if str_endswith old_path (".pyc".data) then
      -- "Don't stash cache files, remove them directly"
      if (fs_keys fs).contains old_path then
        let fs' := fs.filter (fun e => e.1 ≠ old_path)
        match _get_file_root old_path pfx with
        | none => some (fs', stashed)  -- "not under packages root, skip"
        | some _ => none               -- renames() of the just-deleted file raises
      else none                        -- os.unlink of a directory raises
    else
      match _get_file_root old_path pfx with
      | none => some (fs, stashed)     -- "not under packages root, skip"
      | some _ =>
        let sub := fs.filter (fun e => covers old_path e.1)
        some (fs.filter (fun e => ¬ covers old_path e.1), stashed ++ [(old_path, sub)])

/-- uninstallers.py lines 237-266, `_stash_files`: run the rename compressor
over the owned paths against the current disk and stash every surviving
entry. -/
def _stash_files (pfx : Str) (fs : FS) (paths : List Str) : Option (FS × List (Str × FS)) :=
  (compress_for_rename (fs_keys fs) paths).foldl (stash_step pfx) (some (fs, []))

/-- The inputs of `StashedRemovePaths`: the accumulated plan plus the
registry file location (purelib/easy-install.pth) and the environment
prefix. -/
structure RemovePlan where
  paths : List Str
  pth_entries : List Str
  pth_file : Str
  pfx : Str

/-- The in-memory state `remove()` leaves behind for commit/rollback. -/
structure StashState where
  pth_file : Str
  saved_pth : Option Str
  stashed : List (Str × FS)

/-- uninstallers.py lines 221-223, `StashedRemovePaths.remove`: remove the
registry lines, then stash the files. -/
def remove (plan : RemovePlan) (fs : FS) : Option (StashState × FS) :=
  match _remove_pth plan.pth_file plan.pth_entries fs with
  | none => none
  | some (saved, fs₁) =>
    match _stash_files plan.pfx fs₁ plan.paths with
    | none => none
    | some res => some (⟨plan.pth_file, saved, res.2⟩, res.1)

/-- uninstallers.py lines 282-296, `StashedRemovePaths.rollback`: with
nothing stashed, log an error and return; otherwise restore the registry
bytes, then for each stashed pair delete whatever now sits at the original
path (unlink or rmtree) and move the stashed copy back. The trailing
`self.commit()` only discards the in-memory stash and temporary directories,
which are outside the modelled tree. -/
def rollback (st : StashState) (fs : FS) : FS :=
  if st.stashed = [] then fs
  else
    let fs₁ := match st.saved_pth with
      | some bytes => fs_write fs st.pth_file bytes
      | none => fs
    st.stashed.foldl (fun acc e => acc.filter (fun kv => ¬ covers e.1 kv.1) ++ e.2) fs₁

end Uninstallers

section Toolbox

lemma sw_iff {s pre : Str} : str_startswith s pre = true ↔ pre <+: s := by
  unfold str_startswith
  exact List.isPrefixOf_iff_prefix

lemma ew_iff {s suf : Str} : str_endswith s suf = true ↔ suf <:+ s := by
  unfold str_endswith
  exact List.isSuffixOf_iff_suffix

lemma pre_comparable {l₁ l₂ l₃ : Str} (h₁ : l₁ <+: l₃) (h₂ : l₂ <+: l₃) :
    l₁ <+: l₂ ∨ l₂ <+: l₁ :=
  List.prefix_or_prefix_of_prefix h₁ h₂

lemma pre_antisymm {l₁ l₂ : Str} (h₁ : l₁ <+: l₂) (h₂ : l₂ <+: l₁) : l₁ = l₂ :=
  h₁.eq_of_length (Nat.le_antisymm h₁.length_le h₂.length_le)

lemma pre_strict_length {a b : Str} (h : a <+: b) (hne : a ≠ b) : a.length + 1 ≤ b.length := by
  rcases h with ⟨t, rfl⟩
  rcases t with _ | ⟨c, t⟩
  · simp at hne
  · simp

lemma ew_slash_iff {p : Str} : str_endswith p ['/'] = true ↔ p.getLast? = some '/' := by
  rw [ew_iff]
  constructor
  · rintro ⟨t, rfl⟩
    simp
  · intro h
    rcases p.eq_nil_or_concat with rfl | ⟨t, c, rfl⟩
    · simp at h
    · simp at h
      exact ⟨t, by simp [h]⟩

lemma ws_of_not_slash {p : Str} (h : ¬ str_endswith p ['/'] = true) :
    withSlash p = p ++ ['/'] := by
  unfold withSlash
  simp [h]

lemma ws_of_slash {p : Str} (h : str_endswith p ['/'] = true) : withSlash p = p := by
  unfold withSlash
  simp [h]

lemma self_pre_ws (p : Str) : p <+: withSlash p := by
  unfold withSlash
  split
  · exact ⟨[], by simp⟩
  · exact ⟨['/'], rfl⟩

lemma ws_length_le {p : Str} : (withSlash p).length ≤ p.length + 1 := by
  unfold withSlash
  split
  · omega
  · simp

lemma ws_length_ge {p : Str} : p.length ≤ (withSlash p).length :=
  (self_pre_ws p).length_le

/-- The slash-form of a path is always a prefix of the path plus a slash. -/
lemma ws_pre_snoc (p : Str) : withSlash p <+: p ++ ['/'] := by
  unfold withSlash
  split
  · exact ⟨['/'], rfl⟩
  · exact List.prefix_refl _

lemma snoc_dropLast (l : Str) (c : Char) : (l ++ [c]).dropLast = l := by
  simp

/-- The directory a freshly recorded wildcard `root ++ "/"` walks. -/
lemma wildWalk_snoc (root : Str) : wildWalk (root ++ ['/']) = withSlash root := by
  unfold wildWalk
  rw [snoc_dropLast]

lemma covers_iff {old p : Str} : covers old p = true ↔ p = old ∨ withSlash old <+: p := by
  unfold covers
  rw [Bool.or_eq_true, decide_eq_true_iff, sw_iff]

/-- Two paths whose cover sets intersect have comparable slash-forms. -/
lemma covers_overlap {o₁ o₂ x : Str} (h₁ : covers o₁ x = true) (h₂ : covers o₂ x = true) :
    withSlash o₁ <+: withSlash o₂ ∨ withSlash o₂ <+: withSlash o₁ := by
  have hx₁ : withSlash o₁ <+: withSlash x := by
    rcases covers_iff.mp h₁ with rfl | hp
    · exact ⟨[], List.append_nil _⟩
    · exact hp.trans (self_pre_ws x)
  have hx₂ : withSlash o₂ <+: withSlash x := by
    rcases covers_iff.mp h₂ with rfl | hp
    · exact ⟨[], List.append_nil _⟩
    · exact hp.trans (self_pre_ws x)
  exact pre_comparable hx₁ hx₂

lemma covers_self {o : Str} : covers o o = true := covers_iff.mpr (Or.inl rfl)

lemma cover_of_ws_pre {o x : Str} (h : withSlash o <+: x) : covers o x = true :=
  covers_iff.mpr (Or.inr h)

/-- Anything covered through a longer slash-form is covered through a shorter
one or is the shorter cover's own root. -/
lemma covers_of_ws_le {o₁ o₂ x : Str} (hws : withSlash o₁ <+: withSlash o₂)
    (h : covers o₂ x = true) : covers o₁ x = true ∨ x = o₂ := by
  rcases covers_iff.mp h with rfl | hp
  · exact Or.inr rfl
  · exact Or.inl (covers_iff.mpr (Or.inr (hws.trans hp)))

/-- rdropWhile and rtakeWhile partition a list. -/
lemma rdrop_rtake (p : Char → Bool) (l : Str) : l.rdropWhile p ++ l.rtakeWhile p = l := by
  rw [List.rdropWhile, List.rtakeWhile, ← List.reverse_append,
    List.takeWhile_append_dropWhile, List.reverse_reverse]

/-- Taking all but the second part of a concatenation yields the first part. -/
lemma take_of_append {A B p : Str} (h : A ++ B = p) : p.take (p.length - B.length) = A := by
  subst h
  rw [List.length_append, Nat.add_sub_cancel]
  exact List.take_left A B

lemma rdropWhile_ne_last {l : Str} {a : Char} (h : List.rdropWhile (fun c => c ≠ a) l ≠ []) :
    (List.rdropWhile (fun c => c ≠ a) l).getLast h = a := by
  have h2 := List.rdropWhile_last_not (fun c => decide (c ≠ a)) l h
  simpa using h2

lemma rdropWhile_eq_last {l : Str} {a : Char} (h : List.rdropWhile (fun c => c = a) l ≠ []) :
    ¬ (List.rdropWhile (fun c => c = a) l).getLast h = a := by
  have h2 := List.rdropWhile_last_not (fun c => decide (c = a)) l h
  simpa using h2

/-- An absolute path has a nonempty dirname. -/
lemma dirname_ne_nil {p : Str} (h : str_startswith p ['/'] = true) :
    os_path_dirname p ≠ [] := by
  unfold os_path_dirname os_path_split
  simp only
  rw [take_of_append (rdrop_rtake (fun c => c ≠ '/') p)]
  have hD : List.rdropWhile (fun c => c ≠ '/') p ≠ [] := by
    rw [Ne, List.rdropWhile_eq_nil_iff]
    intro hall
    rcases sw_iff.mp h with ⟨t, rfl⟩
    have := hall '/' (by simp)
    simp at this
  split
  · exact hD
  · next hcase =>
    rw [Ne, List.rdropWhile_eq_nil_iff]
    intro hall
    apply hcase
    refine Or.inr ?_
    rw [List.all_eq_true]
    intro c hc
    simpa using hall c hc

/-- posixpath.split: a nonempty head, followed by a slash, is a prefix of the
input. -/
lemma dirname_ws_pre {p : Str} (h : os_path_dirname p ≠ []) :
    withSlash (os_path_dirname p) <+: p := by
  unfold os_path_dirname os_path_split at h ⊢
  simp only at h ⊢
  rw [take_of_append (rdrop_rtake (fun c => c ≠ '/') p)] at h ⊢
  by_cases hcase : (List.rdropWhile (fun c => c ≠ '/') p = []
      ∨ (List.rdropWhile (fun c => c ≠ '/') p).all (fun c => c = '/') = true)
  · rw [if_pos hcase] at h ⊢
    have hall : (List.rdropWhile (fun c => c ≠ '/') p).all (fun c => c = '/') = true := by
      rcases hcase with hnil | hall
      · exact absurd hnil h
      · exact hall
    have hlast : str_endswith (List.rdropWhile (fun c => c ≠ '/') p) ['/'] = true := by
      rw [ew_slash_iff, List.getLast?_eq_getLast _ h, rdropWhile_ne_last h]
    rw [ws_of_slash hlast]
    exact List.rdropWhile_prefix _ p
  · rw [if_neg hcase] at h ⊢
    have hDne : List.rdropWhile (fun c => c ≠ '/') p ≠ [] := by
      intro hnil
      exact hcase (Or.inl hnil)
    have hDlast := rdropWhile_ne_last hDne
    have hElast := rdropWhile_eq_last h
    have hEnoslash : ¬ str_endswith
        (List.rdropWhile (fun c => c = '/') (List.rdropWhile (fun c => c ≠ '/') p)) ['/'] = true := by
      rw [ew_slash_iff, List.getLast?_eq_getLast _ h]
      simpa using hElast
    rw [ws_of_not_slash hEnoslash]
    have hsplitD := rdrop_rtake (fun c => c = '/') (List.rdropWhile (fun c => c ≠ '/') p)
    have hRne : (List.rdropWhile (fun c => c ≠ '/') p).rtakeWhile (fun c => c = '/') ≠ [] := by
      intro hnil
      rw [hnil, List.append_nil] at hsplitD
      apply hElast
      have hgl : (List.rdropWhile (fun c => c = '/') (List.rdropWhile (fun c => c ≠ '/') p)).getLast h
          = (List.rdropWhile (fun c => c ≠ '/') p).getLast hDne := by
        congr 1
      rw [hgl, hDlast]
    rcases List.exists_cons_of_ne_nil hRne with ⟨c, R2, hRc⟩
    have hc : c = '/' := by
      have hmem : c ∈ (List.rdropWhile (fun c => c ≠ '/') p).rtakeWhile (fun c => c = '/') := by
        rw [hRc]
        exact List.mem_cons_self c R2
      have := List.mem_rtakeWhile_imp hmem
      simpa using this
    refine List.IsPrefix.trans ?_ (List.rdropWhile_prefix (fun c => c ≠ '/') p)
    conv_rhs => rw [← hsplitD]
    rw [hRc, hc]
    exact ⟨R2, by simp⟩

end Toolbox

section CompressInvariants

lemma contains_iff {l : List Str} {a : Str} : l.contains a = true ↔ a ∈ l := by simp

/-- Invariants of the state of the `compress_for_rename` loop: the remaining
set only shrinks from `paths0`, every dropped element of `paths0` lies under
the directory some wildcard walks, wildcards are slash-terminated roots
drawn from `U`, a wildcard is only created when all disk files its root
walks were still scheduled for removal, and those disk files have left the
remaining set. -/
structure CInv (disk paths0 U : List Str) (st : List Str × List Str) : Prop where
  rem_sub : ∀ x, x ∈ st.1 → x ∈ paths0
  cover : ∀ f, f ∈ paths0 → f ∈ st.1 ∨ ∃ w, w ∈ st.2 ∧ str_startswith f (wildWalk w) = true
  wild_shape : ∀ w, w ∈ st.2 → ∃ r, r ∈ U ∧ w = r ++ ['/']
  wild_cond : ∀ w, w ∈ st.2 → ∀ f, f ∈ disk → str_startswith f (wildWalk w) = true → f ∈ paths0
  wild_rem : ∀ w, w ∈ st.2 → ∀ f, f ∈ disk → str_startswith f (wildWalk w) = true → f ∉ st.1

lemma cfr_step_inv {disk paths0 U : List Str} {st : List Str × List Str} {root : Str}
    (hroot : root ∈ U) (h : CInv disk paths0 U st) :
    CInv disk paths0 U (cfr_step disk st root) := by
  unfold cfr_step
  split
  · exact h
  · next hskip =>
    dsimp only
    split
    · next hcond =>
      refine ⟨?_, ?_, ?_, ?_, ?_⟩
      · intro x hx
        exact h.rem_sub x (List.mem_of_mem_filter hx)
      · intro f hf
        rcases h.cover f hf with hrem | ⟨w, hw, hfw⟩
        · by_cases hunder : str_startswith f (withSlash root) = true
          · refine Or.inr ⟨root ++ ['/'], List.mem_cons_self _ _, ?_⟩
            rw [wildWalk_snoc]
            exact hunder
          · refine Or.inl ?_
            refine List.mem_filter.mpr ⟨hrem, ?_⟩
            simp only [decide_eq_true_iff]
            intro hcontra
            rw [contains_iff, List.mem_filter] at hcontra
            exact hunder hcontra.2
        · exact Or.inr ⟨w, List.mem_cons_of_mem _ hw, hfw⟩
      · intro w hw
        rcases List.mem_cons.mp hw with rfl | hw'
        · exact ⟨root, hroot, rfl⟩
        · exact h.wild_shape w hw'
      · intro w hw f hfdisk hfw
        rcases List.mem_cons.mp hw with rfl | hw'
        · rw [wildWalk_snoc] at hfw
          have hfall : f ∈ disk.filter (fun f => str_startswith f (withSlash root)) :=
            List.mem_filter.mpr ⟨hfdisk, hfw⟩
          rw [List.all_eq_true] at hcond
          have := hcond f hfall
          rw [contains_iff] at this
          exact h.rem_sub f this
        · exact h.wild_cond w hw' f hfdisk hfw
      · intro w hw f hfdisk hfw hfrem
        rcases List.mem_cons.mp hw with rfl | hw'
        · rw [wildWalk_snoc] at hfw
          have hfin : f ∈ disk.filter (fun f => str_startswith f (withSlash root)) :=
            List.mem_filter.mpr ⟨hfdisk, hfw⟩
          have := (List.mem_filter.mp hfrem).2
          simp only [decide_eq_true_iff] at this
          exact this (contains_iff.mpr hfin)
        · exact h.wild_rem w hw' f hfdisk hfw (List.mem_of_mem_filter hfrem)
    · exact h

lemma cfr_fold_inv {disk paths0 U : List Str} :
    ∀ (l : List Str) (st : List Str × List Str), (∀ r ∈ l, r ∈ U) →
      CInv disk paths0 U st → CInv disk paths0 U (l.foldl (cfr_step disk) st)
  | [], _, _, h => h
  | a :: t, st, hl, h =>
    cfr_fold_inv t (cfr_step disk st a) (fun r hr => hl r (List.mem_cons_of_mem a hr))
      (cfr_step_inv (hl a (List.mem_cons_self a t)) h)

lemma cfr_step_wilds_mono {disk : List Str} {st : List Str × List Str} {root w : Str}
    (hw : w ∈ st.2) : w ∈ (cfr_step disk st root).2 := by
  unfold cfr_step
  split
  · exact hw
  · dsimp only
    split
    · exact List.mem_cons_of_mem _ hw
    · exact hw

lemma cfr_fold_wilds_mono {disk : List Str} :
    ∀ (l : List Str) (st : List Str × List Str) (w : Str),
      w ∈ st.2 → w ∈ (l.foldl (cfr_step disk) st).2
  | [], _, _, hw => hw
  | a :: t, st, w, hw => cfr_fold_wilds_mono t (cfr_step disk st a) w (cfr_step_wilds_mono hw)

/-- No wildcard is nested below another wildcard. -/
def NoNest (wilds : List Str) : Prop :=
  ∀ w₁ ∈ wilds, ∀ w₂ ∈ wilds, w₁ <+: w₂ → w₁ = w₂

/-- Every accumulated wildcard is at most one longer than every root still to
be processed (roots are processed in order of ascending length). -/
def WildsShort (wilds l : List Str) : Prop :=
  ∀ w ∈ wilds, ∀ r ∈ l, w.length ≤ r.length + 1

/-- A prefix of `root ++ [c]` no longer than `root` is a prefix of `root`. -/
lemma pre_snoc {w root : Str} {c : Char} (h : w <+: root ++ [c])
    (hlen : w.length ≤ root.length) : w <+: root := by
  have h1 : w = (root ++ [c]).take w.length := List.prefix_iff_eq_take.mp h
  have h2 : (root ++ [c]).take w.length = root.take w.length :=
    List.take_append_of_le_length hlen
  rw [h1, h2]
  exact List.take_prefix _ _

lemma cfr_step_nonest {disk paths0 U : List Str} {st : List Str × List Str} {root : Str}
    (_h : CInv disk paths0 U st) (hnn : NoNest st.2)
    (hshort : ∀ w ∈ st.2, w.length ≤ root.length + 1) :
    NoNest (cfr_step disk st root).2 := by
  unfold cfr_step
  split
  · exact hnn
  · next hskip =>
    dsimp only
    split
    · next hcond =>
      have hnotpre : ∀ w ∈ st.2, ¬ w <+: root := by
        intro w hw hpre
        exact hskip (by
          rw [List.any_eq_true]
          exact ⟨w, hw, sw_iff.mpr hpre⟩)
      intro w₁ h₁ w₂ h₂ hp
      rcases List.mem_cons.mp h₁ with rfl | h₁' <;> rcases List.mem_cons.mp h₂ with rfl | h₂'
      · rfl
      · exact hp.eq_of_length (Nat.le_antisymm hp.length_le (by
          have := hshort w₂ h₂'
          simpa using this))
      · rcases Nat.lt_or_ge w₁.length (root.length + 1) with hlt | hge
        · exact absurd (pre_snoc hp (Nat.lt_succ_iff.mp hlt)) (hnotpre w₁ h₁')
        · exact hp.eq_of_length (Nat.le_antisymm hp.length_le (by simpa using hge))
      · exact hnn w₁ h₁' w₂ h₂' hp
    · exact hnn

lemma cfr_step_wilds_sub {disk : List Str} {st : List Str × List Str} {root : Str} :
    ∀ w ∈ (cfr_step disk st root).2, w = root ++ ['/'] ∨ w ∈ st.2 := by
  unfold cfr_step
  split
  · exact fun w hw => Or.inr hw
  · dsimp only
    split
    · intro w hw
      rcases List.mem_cons.mp hw with rfl | h
      · exact Or.inl rfl
      · exact Or.inr h
    · exact fun w hw => Or.inr hw

lemma cfr_fold_sorted {disk paths0 U : List Str} :
    ∀ (l : List Str) (st : List Str × List Str),
      l.Pairwise byLen → (∀ r ∈ l, r ∈ U) →
      CInv disk paths0 U st → NoNest st.2 → WildsShort st.2 l →
      NoNest (l.foldl (cfr_step disk) st).2
  | [], _, _, _, _, hnn, _ => hnn
  | a :: t, st, hpw, hl, hinv, hnn, hws => by
    rw [List.foldl_cons]
    have hpc := List.pairwise_cons.mp hpw
    refine cfr_fold_sorted t (cfr_step disk st a) hpc.2
      (fun r hr => hl r (List.mem_cons_of_mem a hr))
      (cfr_step_inv (hl a (List.mem_cons_self a t)) hinv)
      (cfr_step_nonest hinv hnn (fun w hw => hws w hw a (List.mem_cons_self a t)))
      ?_
    intro w hw r hr
    rcases cfr_step_wilds_sub w hw with rfl | hw'
    · have h1 : a.length ≤ r.length := hpc.1 r hr
      simp only [List.length_append, List.length_cons, List.length_nil]
      omega
    · exact hws w hw' r (List.mem_cons_of_mem a hr)

lemma cfr_fold_covered {disk paths0 U : List Str} :
    ∀ (l : List Str) (st : List Str × List Str) (D : Str),
      l.Pairwise byLen → (∀ r ∈ l, r ∈ U) →
      CInv disk paths0 U st → WildsShort st.2 l → D ∈ l →
      (∀ f, f ∈ disk → str_startswith f (withSlash D) = true → f ∈ paths0) →
      ∃ w, w ∈ (l.foldl (cfr_step disk) st).2 ∧ wildWalk w <+: withSlash D
  | [], _, _, _, _, _, _, hD, _ => absurd hD (List.not_mem_nil _)
  | a :: t, st, D, hpw, hl, hinv, hws, hD, hall => by
    rw [List.foldl_cons]
    have hpc := List.pairwise_cons.mp hpw
    rcases List.mem_cons.mp hD with rfl | hDt
    · have hcov : ∃ w, w ∈ (cfr_step disk st D).2 ∧ wildWalk w <+: withSlash D := by
        unfold cfr_step
        split
        · next hskip =>
          rw [List.any_eq_true] at hskip
          obtain ⟨w, hw, hsw⟩ := hskip
          obtain ⟨r, _, rfl⟩ := hinv.wild_shape w hw
          refine ⟨r ++ ['/'], hw, ?_⟩
          rw [wildWalk_snoc]
          exact (ws_pre_snoc r).trans ((sw_iff.mp hsw).trans (self_pre_ws D))
        · next hskip =>
          dsimp only
          split
          · refine ⟨D ++ ['/'], List.mem_cons_self _ _, ?_⟩
            rw [wildWalk_snoc]
          · next hcond =>
            simp only [List.all_eq_true] at hcond
            push_neg at hcond
            obtain ⟨f, hfall, hfc⟩ := hcond
            have hfdisk := List.mem_of_mem_filter hfall
            have hfunder := (List.mem_filter.mp hfall).2
            have hfp : f ∈ paths0 := hall f hfdisk hfunder
            rcases hinv.cover f hfp with hrem | ⟨w, hw, hfw⟩
            · exact absurd (contains_iff.mpr hrem) hfc
            · obtain ⟨r, _, rfl⟩ := hinv.wild_shape w hw
              rw [wildWalk_snoc] at hfw
              rcases pre_comparable (sw_iff.mp hfw) (sw_iff.mp hfunder) with hc | hc
              · refine ⟨r ++ ['/'], hw, ?_⟩
                rw [wildWalk_snoc]
                exact hc
              · have hr_len : r.length ≤ D.length := by
                  have := hws (r ++ ['/']) hw D (List.mem_cons_self D t)
                  simp only [List.length_append, List.length_cons, List.length_nil] at this
                  omega
                have h2 : (withSlash r).length ≤ (withSlash D).length := by
                  by_cases hrs : str_endswith r ['/'] = true
                  · rw [ws_of_slash hrs]
                    exact Nat.le_trans hr_len ws_length_ge
                  · rw [ws_of_not_slash hrs]
                    by_cases hds : str_endswith D ['/'] = true
                    · rw [ws_of_slash hds]
                      have hne : r.length ≠ D.length := by
                        intro heql
                        have hc' : D <+: r ++ ['/'] := by
                          rw [ws_of_slash hds, ws_of_not_slash hrs] at hc
                          exact hc
                        have hDr : D <+: r := pre_snoc hc' (by omega)
                        have hDeq : D = r := hDr.eq_of_length heql.symm
                        exact hrs (hDeq ▸ hds)
                      simp only [List.length_append, List.length_cons, List.length_nil]
                      omega
                    · rw [ws_of_not_slash hds]
                      simp only [List.length_append, List.length_cons, List.length_nil]
                      omega
                have heq : withSlash D = withSlash r :=
                  hc.eq_of_length (Nat.le_antisymm hc.length_le h2)
                refine ⟨r ++ ['/'], hw, ?_⟩
                rw [wildWalk_snoc, ← heq]
      obtain ⟨w, hw, hwp⟩ := hcov
      exact ⟨w, cfr_fold_wilds_mono t _ w hw, hwp⟩
    · refine cfr_fold_covered t (cfr_step disk st a) D hpc.2
        (fun r hr => hl r (List.mem_cons_of_mem a hr))
        (cfr_step_inv (hl a (List.mem_cons_self a t)) hinv) ?_ hDt hall
      intro w hw r hr
      rcases cfr_step_wilds_sub w hw with rfl | hw'
      · have h1 : a.length ≤ r.length := hpc.1 r hr
        simp only [List.length_append, List.length_cons, List.length_nil]
        omega
      · exact hws w hw' r (List.mem_cons_of_mem a hr)

lemma cfr_init_inv (disk paths : List Str) :
    CInv disk paths.dedup ((paths.map os_path_dirname).dedup) (paths.dedup, []) :=
  ⟨fun _ hx => hx, fun _ hf => Or.inl hf,
   fun w hw => absurd hw (List.not_mem_nil w),
   fun w hw => absurd hw (List.not_mem_nil w),
   fun w hw => absurd hw (List.not_mem_nil w)⟩

lemma compress_CInv (disk paths : List Str) :
    CInv disk paths.dedup ((paths.map os_path_dirname).dedup) (cfr_fold disk paths) := by
  unfold cfr_fold
  exact cfr_fold_inv _ _
    (fun r hr => (List.perm_insertionSort byLen _).mem_iff.mp hr)
    (cfr_init_inv disk paths)

lemma compress_NoNest (disk paths : List Str) : NoNest (cfr_fold disk paths).2 := by
  unfold cfr_fold
  exact cfr_fold_sorted _ _ (List.sorted_insertionSort byLen _)
    (fun r hr => (List.perm_insertionSort byLen _).mem_iff.mp hr)
    (cfr_init_inv disk paths)
    (fun w hw => absurd hw (List.not_mem_nil w))
    (fun w hw => absurd hw (List.not_mem_nil w))

lemma compress_covered (disk paths : List Str) (D : Str)
    (hD : D ∈ paths.map os_path_dirname)
    (hall : ∀ f, f ∈ disk → str_startswith f (withSlash D) = true → f ∈ paths.dedup) :
    ∃ w, w ∈ (cfr_fold disk paths).2 ∧ wildWalk w <+: withSlash D := by
  unfold cfr_fold
  exact cfr_fold_covered _ _ D (List.sorted_insertionSort byLen _)
    (fun r hr => (List.perm_insertionSort byLen _).mem_iff.mp hr)
    (cfr_init_inv disk paths)
    (fun w hw => absurd hw (List.not_mem_nil w))
    ((List.perm_insertionSort byLen _).mem_iff.mpr (List.mem_dedup.mpr hD))
    hall

lemma compress_rem_sub {disk paths : List Str} {x : Str}
    (hx : x ∈ (cfr_fold disk paths).1) : x ∈ paths :=
  List.mem_dedup.mp ((compress_CInv disk paths).rem_sub x hx)

lemma compress_cover {disk paths : List Str} {p : Str} (hp : p ∈ paths) :
    p ∈ (cfr_fold disk paths).1
      ∨ ∃ w, w ∈ (cfr_fold disk paths).2 ∧ str_startswith p (wildWalk w) = true :=
  (compress_CInv disk paths).cover p (List.mem_dedup.mpr hp)

lemma compress_wild_shape {disk paths : List Str} {w : Str}
    (hw : w ∈ (cfr_fold disk paths).2) :
    ∃ r, r ∈ paths.map os_path_dirname ∧ w = r ++ ['/'] := by
  obtain ⟨r, hr, hshape⟩ := (compress_CInv disk paths).wild_shape w hw
  exact ⟨r, List.mem_dedup.mp hr, hshape⟩

lemma compress_wild_cond {disk paths : List Str} {w f : Str}
    (hw : w ∈ (cfr_fold disk paths).2) (hf : f ∈ disk)
    (hfw : str_startswith f (wildWalk w) = true) : f ∈ paths :=
  List.mem_dedup.mp ((compress_CInv disk paths).wild_cond w hw f hf hfw)

lemma compress_wild_rem {disk paths : List Str} {w f : Str}
    (hw : w ∈ (cfr_fold disk paths).2) (hf : f ∈ disk)
    (hfw : str_startswith f (wildWalk w) = true) : f ∉ (cfr_fold disk paths).1 :=
  (compress_CInv disk paths).wild_rem w hw f hf hfw

lemma compress_mem_iff {disk paths : List Str} {o : Str} :
    o ∈ compress_for_rename disk paths
      ↔ o ∈ (cfr_fold disk paths).1 ∨ o ∈ (cfr_fold disk paths).2 := by
  unfold compress_for_rename
  exact List.mem_append

end CompressInvariants

section ClaimC2C10

/-- C10 as stated is false at the filesystem root: with the whole disk
scheduled for removal (disk = P = {/a}), the root directory's walk covers
every file, so the root is wildcarded as the literal string `//`
(`root + os.sep`) and `/a` is dropped from the listing — yet `/a` neither
appears in the output nor starts with any entry of the output. -/
theorem compress_root_wildcard_counterexample :
    compress_for_rename ["/a".data] ["/a".data] = ["//".data]
    ∧ "/a".data ∉ compress_for_rename ["/a".data] ["/a".data]
    ∧ ∀ w ∈ compress_for_rename ["/a".data] ["/a".data],
        ¬ str_startswith "/a".data w = true :=
  ⟨by decide, by decide, by decide⟩

/-- C10 amended: every output entry is an input path (with its original
spelling) or a slash-terminated wildcard, and every input path either
appears in the output or lies below the directory some output wildcard
walks — for every wildcard except the filesystem root's, that directory
is spelled by the wildcard string itself. -/
theorem compress_output_covers_amended (disk paths : List Str) :
    (∀ o ∈ compress_for_rename disk paths, o ∈ paths ∨ str_endswith o ['/'] = true)
    ∧ (∀ p ∈ paths, p ∈ compress_for_rename disk paths
        ∨ ∃ w ∈ compress_for_rename disk paths,
            str_endswith w ['/'] = true ∧ str_startswith p (wildWalk w) = true) := by
  constructor
  · intro o ho
    rcases compress_mem_iff.mp ho with hrem | hwild
    · exact Or.inl (compress_rem_sub hrem)
    · obtain ⟨r, _, rfl⟩ := compress_wild_shape hwild
      exact Or.inr (ew_iff.mpr ⟨r, rfl⟩)
  · intro p hp
    rcases compress_cover hp with hrem | ⟨w, hw, hsw⟩
    · exact Or.inl (compress_mem_iff.mpr (Or.inl hrem))
    · obtain ⟨r, _, rfl⟩ := compress_wild_shape hw
      exact Or.inr ⟨r ++ ['/'], compress_mem_iff.mpr (Or.inr hw), ew_iff.mpr ⟨r, rfl⟩, hsw⟩

/-- C2 as stated is false: with a single input file `/a/b/f` (the only file
on disk), the set P contains every file under the directory `/a`, yet the
output contains no wildcard for `/a` — the wildcard is emitted for the direct
parent `/a/b` instead. -/
theorem compress_wildcard_counterexample :
    (∀ f ∈ (["/a/b/f".data] : List Str),
        str_startswith f ("/a".data ++ ['/']) = true → f ∈ (["/a/b/f".data] : List Str))
    ∧ "/a/".data ∉ compress_for_rename ["/a/b/f".data] ["/a/b/f".data]
    ∧ compress_for_rename ["/a/b/f".data] ["/a/b/f".data] = ["/a/b/".data] :=
  ⟨by decide, by decide, by decide⟩

/-- C2 amended: for a directory D that is the direct parent of some input
path — the only directories the algorithm probes — if P contains every disk
file under D, the output holds a wildcard whose directory is D or an
ancestor of D and no disk file under D is listed; if some disk file under D
is missing from P, no wildcard for D or any of its ancestors appears, and
each disk file under D that is in P is either listed individually or lies
under a wildcard strictly below D. -/
theorem compress_wildcard_amended (disk paths : List Str) (D : Str) :
    ((D ∈ paths.map os_path_dirname
        ∧ (∀ f ∈ disk, str_startswith f (withSlash D) = true → f ∈ paths)
        ∧ (∀ f ∈ disk, ¬ str_endswith f ['/'] = true)) →
      (∃ w ∈ compress_for_rename disk paths,
          str_endswith w ['/'] = true ∧ wildWalk w <+: withSlash D)
        ∧ ∀ f ∈ disk, str_startswith f (withSlash D) = true
            → f ∉ compress_for_rename disk paths)
    ∧ (((∃ f ∈ disk, str_startswith f (withSlash D) = true ∧ f ∉ paths)
        ∧ (∀ p ∈ paths, ¬ str_endswith p ['/'] = true)) →
      (∀ w ∈ compress_for_rename disk paths,
          str_endswith w ['/'] = true → ¬ wildWalk w <+: withSlash D)
        ∧ ∀ f ∈ disk, str_startswith f (withSlash D) = true → f ∈ paths →
            (f ∈ compress_for_rename disk paths
              ∨ ∃ w ∈ compress_for_rename disk paths, str_endswith w ['/'] = true
                  ∧ str_startswith f (wildWalk w) = true
                  ∧ withSlash D <+: wildWalk w ∧ wildWalk w ≠ withSlash D)) := by
  constructor
  · rintro ⟨hD, hall, hnoslash⟩
    obtain ⟨w, hw, hwpre⟩ := compress_covered disk paths D hD
      (fun f hf hfu => List.mem_dedup.mpr (hall f hf hfu))
    have hwend : str_endswith w ['/'] = true := by
      obtain ⟨r, _, rfl⟩ := compress_wild_shape hw
      exact ew_iff.mpr ⟨r, rfl⟩
    refine ⟨⟨w, compress_mem_iff.mpr (Or.inr hw), hwend, hwpre⟩, ?_⟩
    intro f hf hfu hfo
    rcases compress_mem_iff.mp hfo with hrem | hwild
    · exact compress_wild_rem hw hf (sw_iff.mpr (hwpre.trans (sw_iff.mp hfu))) hrem
    · obtain ⟨r, _, rfl⟩ := compress_wild_shape hwild
      exact hnoslash _ hf (ew_iff.mpr ⟨r, rfl⟩)
  · rintro ⟨⟨g, hg, hgu, hgp⟩, hpnoslash⟩
    have hnocover : ∀ w, w ∈ (cfr_fold disk paths).2 → ¬ wildWalk w <+: withSlash D := by
      intro w hw hwpre
      exact hgp (compress_wild_cond hw hg (sw_iff.mpr (hwpre.trans (sw_iff.mp hgu))))
    constructor
    · intro w hwo hwend hwpre
      rcases compress_mem_iff.mp hwo with hrem | hwild
      · exact hpnoslash w (compress_rem_sub hrem) hwend
      · exact hnocover w hwild hwpre
    · intro f hf hfu hfp
      rcases compress_cover hfp with hrem | ⟨w, hw, hsw⟩
      · exact Or.inl (compress_mem_iff.mpr (Or.inl hrem))
      · have hwend : str_endswith w ['/'] = true := by
          obtain ⟨r, _, rfl⟩ := compress_wild_shape hw
          exact ew_iff.mpr ⟨r, rfl⟩
        rcases pre_comparable (sw_iff.mp hsw) (sw_iff.mp hfu) with hc | hc
        · exact absurd hc (hnocover w hw)
        · refine Or.inr ⟨w, compress_mem_iff.mpr (Or.inr hw), hwend, hsw, hc, ?_⟩
          intro heqq
          apply hnocover _ hw
          rw [heqq]

/-- Witness for the amended C2 theorem: a complete directory is wildcarded
and its files disappear from the listing; an incomplete one gets no covering
wildcard. -/
theorem compress_wildcard_amended_witness :
    ((∃ w ∈ compress_for_rename ["/e/l/a.py".data, "/e/l/b.py".data]
          ["/e/l/a.py".data, "/e/l/b.py".data],
        str_endswith w ['/'] = true ∧ wildWalk w <+: withSlash "/e/l".data)
      ∧ ∀ f ∈ (["/e/l/a.py".data, "/e/l/b.py".data] : List Str),
          str_startswith f (withSlash "/e/l".data) = true
            → f ∉ compress_for_rename ["/e/l/a.py".data, "/e/l/b.py".data]
                ["/e/l/a.py".data, "/e/l/b.py".data])
    ∧ (∀ w ∈ compress_for_rename ["/e/l/a.py".data, "/e/l/b.py".data] ["/e/l/a.py".data],
        str_endswith w ['/'] = true → ¬ wildWalk w <+: withSlash "/e/l".data) :=
  ⟨(compress_wildcard_amended ["/e/l/a.py".data, "/e/l/b.py".data]
      ["/e/l/a.py".data, "/e/l/b.py".data] "/e/l".data).1 (by decide),
   ((compress_wildcard_amended ["/e/l/a.py".data, "/e/l/b.py".data]
      ["/e/l/a.py".data] "/e/l".data).2 (by decide)).1⟩

end ClaimC2C10

section ClaimC3

/-- C3 as stated is false: an archive whose top level holds two distinct
`.dist-info` directories is ambiguous, yet resolution succeeds and returns
the first matching top-level name instead of failing. -/
theorem dist_info_dir_counterexample :
    str_endswith (topLevelName "a.dist-info/x".data) (".dist-info".data) = true
    ∧ str_endswith (topLevelName "b.dist-info/y".data) (".dist-info".data) = true
    ∧ topLevelName "a.dist-info/x".data ≠ topLevelName "b.dist-info/y".data
    ∧ dist_info_dir ["a.dist-info/x".data, "b.dist-info/y".data]
        = some "a.dist-info".data :=
  ⟨by decide, by decide, by decide, by decide⟩

/-- C3 amended: absence of a top-level entry ending in the reserved suffix is
a fatal validation error (resolution yields no directory name), but ambiguity
is not checked: whenever some entry matches, the resolver returns the
top-level name of the first matching entry. -/
theorem dist_info_dir_amended (namelist : List Str) :
    ((∀ n ∈ namelist, ¬ str_endswith (topLevelName n) (".dist-info".data) = true) →
      dist_info_dir namelist = none)
    ∧ (∀ n, namelist.find?
          (fun name => str_endswith (topLevelName name) (".dist-info".data)) = some n →
        dist_info_dir namelist = some (topLevelName n)
          ∧ n ∈ namelist ∧ str_endswith (topLevelName n) (".dist-info".data) = true) := by
  constructor
  · intro hnone
    unfold dist_info_dir
    rw [List.find?_eq_none.mpr (fun n hn => by simpa using hnone n hn)]
    rfl
  · intro n hfind
    refine ⟨?_, List.mem_of_find?_eq_some hfind, ?_⟩
    · unfold dist_info_dir
      rw [hfind]
      rfl
    · have := List.find?_some hfind
      simpa using this

/-- Witness for the amended C3 theorem. -/
theorem dist_info_dir_amended_witness :
    dist_info_dir ["foo/x".data] = none
    ∧ dist_info_dir ["pkg-1.0.dist-info/RECORD".data] = some "pkg-1.0.dist-info".data := by
  refine ⟨(dist_info_dir_amended ["foo/x".data]).1 (by decide), ?_⟩
  have h := ((dist_info_dir_amended ["pkg-1.0.dist-info/RECORD".data]).2
    "pkg-1.0.dist-info/RECORD".data (by decide)).1
  rw [show topLevelName "pkg-1.0.dist-info/RECORD".data = "pkg-1.0.dist-info".data
    from by decide] at h
  exact h

end ClaimC3

section ClaimC4

/-- C4: the claim describes the intended behavior (delete `.pyc` files in
place, never stash them, and carry on), but the code drops the `continue`
after `os.unlink(old_path)`: for an existing `.pyc` below the environment
prefix it deletes the file and then still calls `renames` on the now-missing
path, which raises, so the stash step does not complete. -/
theorem stash_files_pyc_raises :
    fs_exists [("/env/lib/a.pyc".data, "x".data), ("/env/lib/keep.py".data, "y".data)]
      "/env/lib/a.pyc".data = true
    ∧ _stash_files "/env".data
        [("/env/lib/a.pyc".data, "x".data), ("/env/lib/keep.py".data, "y".data)]
        ["/env/lib/a.pyc".data] = none :=
  ⟨by decide, by rfl⟩

end ClaimC4

section ClaimC5

/-- C5: calling rollback before any stash has occurred (empty stash record)
returns without raising and leaves every file, including the linkage
registry file, untouched; the model returns the snapshot unchanged while the
source only logs an operator error. -/
theorem rollback_nothing_stashed (st : StashState) (fs : FS) (h : st.stashed = []) :
    rollback st fs = fs := by
  unfold rollback
  rw [if_pos h]

/-- Witness for the C5 theorem. -/
theorem rollback_nothing_stashed_witness :
    rollback ⟨"/e/l/easy-install.pth".data, none, []⟩
        [("/e/l/easy-install.pth".data, "keep\n".data)]
      = [("/e/l/easy-install.pth".data, "keep\n".data)] :=
  rollback_nothing_stashed _ _ rfl

end ClaimC5

section ClaimC6

lemma install_into_envs_of_mem {cacheDirs : List Str} {stem : Str} (h : stem ∈ cacheDirs) :
    ∀ n, install_into_envs cacheDirs stem n = (cacheDirs, 0)
  | 0 => rfl
  | n + 1 => by
    unfold install_into_envs install_wheel_with_cache
    rw [if_pos (contains_iff.mpr h)]
    dsimp only
    rw [install_into_envs_of_mem h n]
    simp

/-- C6: the cached installer performs the full direct install into the cache
entry's scheme exactly when the cache entry's directory does not yet exist,
so installing the same archive into any positive number of environments
materializes the payload exactly once: one full install happens in total and
the final cache state holds a single copy for the wheel. -/
theorem install_wheel_with_cache_once (cacheDirs : List Str) (stem : Str) (n : Nat)
    (hfresh : stem ∉ cacheDirs) (hn : 1 ≤ n) :
    ((install_wheel_with_cache cacheDirs stem).2 = true ↔ stem ∉ cacheDirs)
    ∧ (∀ dirs : List Str, stem ∈ dirs → (install_wheel_with_cache dirs stem).2 = false)
    ∧ (install_into_envs cacheDirs stem n).2 = 1
    ∧ (install_into_envs cacheDirs stem n).1.count stem = 1 := by
  have hstep : ∀ dirs : List Str, stem ∈ dirs →
      (install_wheel_with_cache dirs stem).2 = false := by
    intro dirs hmem
    unfold install_wheel_with_cache
    rw [if_pos (contains_iff.mpr hmem)]
  refine ⟨?_, hstep, ?_, ?_⟩
  · unfold install_wheel_with_cache
    rw [if_neg (fun hc => hfresh (contains_iff.mp hc))]
    simpa using hfresh
  all_goals
    rcases n with _ | m
    · exact absurd hn (by simp)
    · unfold install_into_envs install_wheel_with_cache
      rw [if_neg (fun hc => hfresh (contains_iff.mp hc))]
      dsimp only
      rw [install_into_envs_of_mem (List.mem_cons_self stem cacheDirs) m]
      simp [List.count_cons, List.count_eq_zero.mpr hfresh]

/-- Witness for the C6 theorem: two environments, one payload install. -/
theorem install_wheel_with_cache_once_witness :
    (install_into_envs [] "demo-1.0-py3-none-any".data 2).2 = 1
    ∧ (install_into_envs [] "demo-1.0-py3-none-any".data 2).1.count
        "demo-1.0-py3-none-any".data = 1 :=
  ⟨(install_wheel_with_cache_once [] "demo-1.0-py3-none-any".data 2 (by decide)
      (by decide)).2.2.1,
   (install_wheel_with_cache_once [] "demo-1.0-py3-none-any".data 2 (by decide)
      (by decide)).2.2.2⟩

end ClaimC6

section ClaimC8

/-- C8: writing twice through the scheme destination with the same
(scheme root, relative path) never leaves two files at the resolved target:
after the second write exactly one entry sits at the target path and it holds
the second stream's bytes (the pre-existing file is removed before writing). -/
lemma write_to_fs_eq (scheme_dict : String → Str) (fs : FS) (scheme : String)
    (path c : Str) :
    write_to_fs scheme_dict fs scheme path c
      = (if fs_exists fs (os_path_join2 (scheme_dict scheme) path) = true
          then fs.filter (fun e => e.1 ≠ os_path_join2 (scheme_dict scheme) path) else fs)
        ++ [(os_path_join2 (scheme_dict scheme) path, c)] := rfl

theorem write_to_fs_overwrites (scheme_dict : String → Str) (fs : FS) (scheme : String)
    (path c₁ c₂ : Str)
    (hfile : ¬ str_endswith (os_path_join2 (scheme_dict scheme) path) ['/'] = true) :
    (fs_keys (write_to_fs scheme_dict (write_to_fs scheme_dict fs scheme path c₁)
        scheme path c₂)).count (os_path_join2 (scheme_dict scheme) path) = 1
    ∧ fs_lookup (write_to_fs scheme_dict (write_to_fs scheme_dict fs scheme path c₁)
        scheme path c₂) (os_path_join2 (scheme_dict scheme) path) = some c₂ := by
  have hmem1 : os_path_join2 (scheme_dict scheme) path
      ∈ fs_keys (write_to_fs scheme_dict fs scheme path c₁) := by
    rw [write_to_fs_eq]
    unfold fs_keys
    rw [List.map_append]
    exact List.mem_append.mpr (Or.inr (by simp))
  have hex : fs_exists (write_to_fs scheme_dict fs scheme path c₁)
      (os_path_join2 (scheme_dict scheme) path) = true := by
    unfold fs_exists
    rw [Bool.or_eq_true, Bool.and_eq_true]
    refine Or.inl ⟨?_, contains_iff.mpr hmem1⟩
    simpa using hfile
  rw [write_to_fs_eq scheme_dict (write_to_fs scheme_dict fs scheme path c₁) scheme path c₂,
    if_pos hex]
  constructor
  · unfold fs_keys
    rw [List.map_append, List.count_append]
    have hzero : ((List.filter (fun e => e.1 ≠ os_path_join2 (scheme_dict scheme) path)
        (write_to_fs scheme_dict fs scheme path c₁)).map (fun e => e.1)).count
          (os_path_join2 (scheme_dict scheme) path) = 0 := by
      rw [List.count_eq_zero]
      intro hmem
      obtain ⟨e, he, hkey⟩ := List.mem_map.mp hmem
      have h2 := (List.mem_filter.mp he).2
      simp only [decide_eq_true_iff] at h2
      exact h2 hkey
    rw [hzero]
    simp
  · unfold fs_lookup
    rw [List.find?_append]
    have hnone : (List.filter (fun e => e.1 ≠ os_path_join2 (scheme_dict scheme) path)
        (write_to_fs scheme_dict fs scheme path c₁)).find?
          (fun e => e.1 = os_path_join2 (scheme_dict scheme) path) = none := by
      rw [List.find?_eq_none]
      intro e he
      have h2 := (List.mem_filter.mp he).2
      simpa using h2
    rw [hnone]
    simp

/-- Witness for the C8 theorem. -/
theorem write_to_fs_overwrites_witness :
    (fs_keys (write_to_fs (fun _ => "/env/lib".data)
        (write_to_fs (fun _ => "/env/lib".data) [] "purelib" "a.py".data "one".data)
        "purelib" "a.py".data "two".data)).count "/env/lib/a.py".data = 1
    ∧ fs_lookup (write_to_fs (fun _ => "/env/lib".data)
        (write_to_fs (fun _ => "/env/lib".data) [] "purelib" "a.py".data "one".data)
        "purelib" "a.py".data "two".data) "/env/lib/a.py".data = some "two".data :=
  write_to_fs_overwrites (fun _ => "/env/lib".data) [] "purelib" "a.py".data
    "one".data "two".data (by decide)

end ClaimC8

section ClaimC7

lemma getLast_concat_right {a t : Str} {c : Char} : (a ++ (t ++ [c])).getLast? = some c := by
  rw [← List.append_assoc]
  exact List.getLast?_concat _

lemma join2_getLast {a b : Str} (hb : b ≠ []) :
    (os_path_join2 a b).getLast? = b.getLast? := by
  rcases b.eq_nil_or_concat with rfl | ⟨t, c, rfl⟩
  · exact absurd rfl hb
  · simp only [List.concat_eq_append]
    unfold os_path_join2
    split
    · rfl
    · rw [List.getLast?_concat]
      split
      · exact getLast_concat_right
      · exact getLast_concat_right

lemma pth_getLast (x : Str) : (x ++ ".pth".data).getLast? = some 'h' := by
  rw [show (".pth".data : Str) = ['.', 'p', 't'] ++ ['h'] from rfl]
  exact getLast_concat_right

/-- C7 as stated is false: for a wheel that does not declare root-is-purelib
the root scheme resolved from its tags is "platlib", and the link install
writes the registry pointer (with the cache entry's purelib directory as its
single line) into the platlib root — no write at all targets the purelib
root. -/
theorem install_from_cache_pointer_counterexample :
    (("platlib", "demo".data ++ ".pth".data, "/cache/demo/lib".data ++ ['\n'])
        ∈ _install_from_cache (fun _ => ("scripts", [], [])) (fun p => ("purelib", p))
            "demo-1.0.dist-info".data "platlib" false [] []
            "/cache/demo/lib".data "/cache/demo".data "demo".data "installer 0.5.1".data)
    ∧ ∀ wrt ∈ _install_from_cache (fun _ => ("scripts", [], [])) (fun p => ("purelib", p))
          "demo-1.0.dist-info".data "platlib" false [] []
          "/cache/demo/lib".data "/cache/demo".data "demo".data "installer 0.5.1".data,
        wrt.1 ≠ "purelib" :=
  ⟨by decide, by decide⟩

/-- C7 amended: the link install performs exactly one registry-pointer write:
it targets the wheel's root scheme (the pure-library root exactly when the
wheel declares root-is-purelib), its path is the normalized project name plus
`.pth`, and its content is the cache entry's pure-library directory followed
by a newline — provided generated scripts go to the scripts scheme, the root
scheme is not the scripts scheme, and no copied archive entry lands on the
pointer's own target. -/
theorem install_from_cache_pointer_amended
    (ws : String × String × String × String → SchemeWrite)
    (det : Str → String × Str) (dd : Str) (root_scheme : String) (hep : Bool)
    (eps : List (String × String × String × String)) (entries : List (Str × Str))
    (cpl cpath nn iv : Str)
    (hws : ∀ ep ∈ eps, (ws ep).1 = "scripts")
    (hroot : root_scheme ≠ "scripts")
    (hdet : ∀ e ∈ entries,
      ¬ ((det e.1).1 = root_scheme ∧ (det e.1).2 = nn ++ ".pth".data)) :
    (_install_from_cache ws det dd root_scheme hep eps entries cpl cpath nn iv).filter
        (fun wrt => wrt.1 = root_scheme ∧ wrt.2.1 = nn ++ ".pth".data)
      = [(root_scheme, nn ++ ".pth".data, cpl ++ ['\n'])] := by
  unfold _install_from_cache
  rw [List.filter_append, List.filter_append, List.filter_append]
  have h1 : (if hep = true then eps.map ws else []).filter
      (fun wrt => wrt.1 = root_scheme ∧ wrt.2.1 = nn ++ ".pth".data) = [] := by
    split
    · rw [List.filter_eq_nil_iff]
      intro wrt hwrt
      obtain ⟨ep, hep', rfl⟩ := List.mem_map.mp hwrt
      simp only [decide_eq_true_iff, not_and]
      intro hsch _
      exact hroot (hsch.symm.trans (hws ep hep'))
    · rfl
  have h2 : (entries.filterMap (fun e =>
      if e.1 = os_path_join2 dd ("RECORD".data)
          ∨ ¬ (str_endswith e.1 (".pth".data) ∨ str_startswith e.1 dd)
      then none else some ((det e.1).1, (det e.1).2, e.2))).filter
        (fun wrt => wrt.1 = root_scheme ∧ wrt.2.1 = nn ++ ".pth".data) = [] := by
    rw [List.filter_eq_nil_iff]
    intro wrt hwrt
    obtain ⟨e, he, hfe⟩ := List.mem_filterMap.mp hwrt
    by_cases hcond : (e.1 = os_path_join2 dd ("RECORD".data)
        ∨ ¬ (str_endswith e.1 (".pth".data) = true ∨ str_startswith e.1 dd = true))
    · rw [if_pos hcond] at hfe
      exact absurd hfe (by simp)
    · rw [if_neg hcond] at hfe
      cases hfe
      simp only [decide_eq_true_iff, not_and]
      intro hsch hpath
      exact hdet e he ⟨hsch, hpath⟩
  have h3 : ([(root_scheme, nn ++ ".pth".data, cpl ++ ['\n'])] : List SchemeWrite).filter
      (fun wrt => wrt.1 = root_scheme ∧ wrt.2.1 = nn ++ ".pth".data) =
        [(root_scheme, nn ++ ".pth".data, cpl ++ ['\n'])] := by
    simp
  have h4 : ([(root_scheme, os_path_join2 dd ("INSTALLER".data), iv),
      (root_scheme, os_path_join2 dd ("REFER_TO".data), cpath)] : List SchemeWrite).filter
        (fun wrt => wrt.1 = root_scheme ∧ wrt.2.1 = nn ++ ".pth".data) = [] := by
    rw [List.filter_eq_nil_iff]
    intro wrt hwrt
    simp only [decide_eq_true_iff, not_and]
    rcases List.mem_cons.mp hwrt with rfl | hwrt2
    · intro _ hpath
      have hlast := congrArg List.getLast? hpath
      rw [join2_getLast (by decide), pth_getLast] at hlast
      exact absurd hlast (by decide)
    · rcases List.mem_cons.mp hwrt2 with rfl | hnil
      · intro _ hpath
        have hlast := congrArg List.getLast? hpath
        rw [join2_getLast (by decide), pth_getLast] at hlast
        exact absurd hlast (by decide)
      · exact absurd hnil (List.not_mem_nil _)
  rw [h1, h2, h3, h4]
  rfl

/-- Witness for the amended C7 theorem. -/
theorem install_from_cache_pointer_amended_witness :
    (_install_from_cache (fun _ => ("scripts", "cli".data, "#!py".data))
        (fun p => ("purelib", p)) "demo-1.0.dist-info".data "purelib" true
        [("cli", "m", "a", "console_scripts")]
        [("demo-1.0.dist-info/METADATA".data, "M".data)]
        "/cache/demo/lib".data "/cache/demo".data "demo".data
        "installer 0.5.1".data).filter
        (fun wrt => wrt.1 = "purelib" ∧ wrt.2.1 = "demo".data ++ ".pth".data)
      = [("purelib", "demo".data ++ ".pth".data, "/cache/demo/lib".data ++ ['\n'])] :=
  install_from_cache_pointer_amended _ _ _ _ _ _ _ _ _ _ _
    (by decide) (by decide) (by decide)

end ClaimC7

section ClaimC9

/-- C9: planning the removal of a link-mode (editable) install whose egg-link
exists but whose recorded pointer line differs from the distribution's
recorded location raises the consistency error before anything is added: the
planner returns the error, producing no removal set, and the snapshot is
never touched (planning is read-only by construction). -/
theorem from_dist_mismatch_aborts (fs : FS) (purelib_dir bin_dir : Str) (dist : DistInfo)
    (egg content : Str)
    (hedit : dist.is_editable = true)
    (hegg : get_egg_link_path fs dist.project_name purelib_dir = some egg)
    (hread : fs_lookup fs egg = some content)
    (hne : str_strip ((str_splitlines content).headD []) ≠ dist.location) :
    from_dist fs purelib_dir bin_dir dist
      = .error (mismatch_msg egg dist.project_name dist.location) := by
  unfold from_dist
  rw [hedit]
  simp only [hegg, hread, if_pos, if_neg, hne, ite_true]
  rw [if_pos hne]
  rfl

/-- Witness for the C9 theorem. -/
theorem from_dist_mismatch_aborts_witness :
    from_dist [("/e/l/demo.egg-link".data, "/src/other\n.".data)] "/e/l".data "/e/bin".data
        ⟨"demo".data, "/src/demo".data, true, [], false, [], [], []⟩
      = .error (mismatch_msg "/e/l/demo.egg-link".data "demo".data "/src/demo".data) :=
  from_dist_mismatch_aborts _ _ _ _ _ _ rfl (by rfl) (by rfl) (by decide)

end ClaimC9

section FsToolbox

lemma fs_lookup_eq_of_mem {fs : FS} (hnd : (fs_keys fs).Nodup) {p c : Str}
    (h : (p, c) ∈ fs) : fs_lookup fs p = some c := by
  induction fs with
  | nil => exact absurd h (List.not_mem_nil _)
  | cons a t ih =>
    unfold fs_lookup
    rcases List.mem_cons.mp h with rfl | hmem
    · rw [List.find?_cons_of_pos]
      · rfl
      · simp
    · have hane : a.1 ≠ p := by
        intro heq
        have : p ∈ fs_keys t := List.mem_map_of_mem (fun e => e.1) hmem
        rw [fs_keys, List.map_cons, List.nodup_cons] at hnd
        exact hnd.1 (heq ▸ this)
      rw [List.find?_cons_of_neg]
      · exact ih (by
          rw [fs_keys, List.map_cons, List.nodup_cons] at hnd
          exact hnd.2) hmem
      · simpa using hane

lemma fs_lookup_eq_none {fs : FS} {p : Str} (h : p ∉ fs_keys fs) :
    fs_lookup fs p = none := by
  unfold fs_lookup
  rw [List.find?_eq_none.mpr]
  · rfl
  · intro e he
    simp only [decide_eq_true_iff]
    intro heq
    exact h (heq ▸ List.mem_map_of_mem (fun e => e.1) he)

lemma fs_lookup_mem_keys {fs : FS} {p c : Str} (h : fs_lookup fs p = some c) :
    p ∈ fs_keys fs := by
  unfold fs_lookup at h
  rcases hfind : fs.find? (fun e => e.1 = p) with _ | e
  · rw [hfind] at h
    exact absurd h (by simp)
  · have hmem := List.mem_of_find?_eq_some hfind
    have hkey : e.1 = p := by simpa using List.find?_some hfind
    exact hkey ▸ List.mem_map_of_mem (fun e => e.1) hmem

lemma fs_write_mem {fs : FS} {p c : Str} {kv : Str × Str} :
    kv ∈ fs_write fs p c ↔ (kv ∈ fs ∧ kv.1 ≠ p) ∨ kv = (p, c) := by
  unfold fs_write
  rw [List.mem_append]
  constructor
  · rintro (hf | hs)
    · have h1 := List.mem_of_mem_filter hf
      have h2 := (List.mem_filter.mp hf).2
      simp only [decide_eq_true_iff] at h2
      exact Or.inl ⟨h1, h2⟩
    · exact Or.inr (by simpa using hs)
  · rintro (⟨h1, h2⟩ | rfl)
    · exact Or.inl (List.mem_filter.mpr ⟨h1, by simpa using h2⟩)
    · exact Or.inr (by simp)

lemma fs_write_keys_mem {fs : FS} {p c q : Str} :
    q ∈ fs_keys (fs_write fs p c) ↔ (q ∈ fs_keys fs ∧ q ≠ p) ∨ q = p := by
  unfold fs_keys
  constructor
  · intro h
    obtain ⟨e, he, hk⟩ := List.mem_map.mp h
    rcases fs_write_mem.mp he with ⟨h1, h2⟩ | rfl
    · exact Or.inl ⟨hk ▸ List.mem_map_of_mem (fun e => e.1) h1, hk ▸ h2⟩
    · exact Or.inr hk.symm
  · rintro (⟨h1, h2⟩ | rfl)
    · obtain ⟨e, he, hk⟩ := List.mem_map.mp h1
      exact hk ▸ List.mem_map_of_mem (fun e => e.1)
        (fs_write_mem.mpr (Or.inl ⟨he, by rw [hk]; exact h2⟩))
    · exact List.mem_map_of_mem (fun e => e.1) (fs_write_mem.mpr (Or.inr rfl))

lemma fs_write_nodup {fs : FS} {p c : Str} (hnd : (fs_keys fs).Nodup) :
    (fs_keys (fs_write fs p c)).Nodup := by
  unfold fs_write fs_keys
  rw [List.map_append, List.nodup_append]
  refine ⟨hnd.sublist ((List.filter_sublist fs).map (fun e => e.1)), by simp, ?_⟩
  intro q hq
  obtain ⟨e, he, hk⟩ := List.mem_map.mp hq
  have h2 := (List.mem_filter.mp he).2
  simp only [decide_eq_true_iff] at h2
  simp only [List.map_cons, List.map_nil, List.mem_singleton]
  exact hk ▸ h2

lemma fs_write_WF {fs : FS} {p c : Str} (hWF : FSWellFormed fs) (hp : p ∈ fs_keys fs) :
    FSWellFormed (fs_write fs p c) := by
  obtain ⟨hnd, hpre, hns⟩ := hWF
  have hkeys : ∀ q, q ∈ fs_keys (fs_write fs p c) ↔ q ∈ fs_keys fs := by
    intro q
    rw [fs_write_keys_mem]
    constructor
    · rintro (⟨h1, _⟩ | rfl)
      · exact h1
      · exact hp
    · intro h1
      by_cases hq : q = p
      · exact Or.inr hq
      · exact Or.inl ⟨h1, hq⟩
  exact ⟨fs_write_nodup hnd,
    fun a ha b hb => hpre a ((hkeys a).mp ha) b ((hkeys b).mp hb),
    fun a ha => hns a ((hkeys a).mp ha)⟩

lemma fs_exists_extract {fs : FS} {p : Str} (h : fs_exists fs p = true) :
    ∃ k ∈ fs_keys fs, covers p k = true := by
  unfold fs_exists at h
  rw [Bool.or_eq_true, Bool.and_eq_true] at h
  rcases h with ⟨_, hc⟩ | hany
  · exact ⟨p, contains_iff.mp hc, covers_self⟩
  · rw [List.any_eq_true] at hany
    obtain ⟨k, hk, hsw⟩ := hany
    exact ⟨k, hk, covers_iff.mpr (Or.inr (sw_iff.mp hsw))⟩

lemma keys_sublist_of_sublist {fs₁ fs₂ : FS} (h : List.Sublist fs₁ fs₂) :
    List.Sublist (fs_keys fs₁) (fs_keys fs₂) := by
  unfold fs_keys
  exact List.Sublist.map (fun e => e.1) h

end FsToolbox

section PairDisjoint

/-- Asymmetric core of the disjointness argument: two distinct members of the
compressor's output whose slash-forms nest contradict a plan with pairwise
unrelated absolute file paths (the nested member needs an on-disk witness
only when it is the individually-listed one). -/
lemma compress_pair_aux {disk paths : List Str} {o₁ o₂ : Str}
    (habs : ∀ p ∈ paths, str_startswith p ['/'] = true)
    (hpns : ∀ p ∈ paths, ¬ str_endswith p ['/'] = true)
    (hsep : ∀ p ∈ paths, ∀ q ∈ paths, ¬ str_startswith p (withSlash q) = true)
    (h₁ : o₁ ∈ compress_for_rename disk paths)
    (h₂ : o₂ ∈ compress_for_rename disk paths)
    (hne : o₁ ≠ o₂)
    (he₂ : ∃ k ∈ disk, covers o₂ k = true)
    (hws : withSlash o₁ <+: withSlash o₂) : False := by
  rcases compress_mem_iff.mp h₁ with hr₁ | hw₁
  · -- o₁ individually listed: o₁ ∈ paths, so withSlash o₁ = o₁ ++ ['/']
    have ho₁p : o₁ ∈ paths := compress_rem_sub hr₁
    have hws₁ : withSlash o₁ = o₁ ++ ['/'] := ws_of_not_slash (hpns o₁ ho₁p)
    rcases compress_mem_iff.mp h₂ with hr₂ | hw₂
    · -- both individually listed
      have ho₂p : o₂ ∈ paths := compress_rem_sub hr₂
      have hws₂ : withSlash o₂ = o₂ ++ ['/'] := ws_of_not_slash (hpns o₂ ho₂p)
      rw [hws₁, hws₂] at hws
      rcases Nat.lt_or_ge o₁.length (o₂.length) with hlt | hge
      · have hp : o₁ ++ ['/'] <+: o₂ := pre_snoc hws (by
          simp only [List.length_append, List.length_cons, List.length_nil]
          omega)
        exact hsep o₂ ho₂p o₁ ho₁p (sw_iff.mpr (hws₁ ▸ hp))
      · have heq : o₁ ++ ['/'] = o₂ ++ ['/'] :=
          hws.eq_of_length (by
            have := hws.length_le
            simp only [List.length_append, List.length_cons, List.length_nil] at this ⊢
            omega)
        exact hne (List.append_cancel_right heq)
    · -- o₁ listed below a wildcard r ++ ['/']
      obtain ⟨r, hrd, rfl⟩ := compress_wild_shape hw₂
      obtain ⟨p₀, hp₀, hp₀d⟩ := List.mem_map.mp hrd
      have hrne : os_path_dirname p₀ ≠ [] := dirname_ne_nil (habs p₀ hp₀)
      have hrpre : withSlash (os_path_dirname p₀) <+: p₀ := dirname_ws_pre hrne
      have hwsr : withSlash (r ++ ['/']) = r ++ ['/'] :=
        ws_of_slash (ew_iff.mpr ⟨r, rfl⟩)
      rw [hws₁, hwsr] at hws
      rcases Nat.lt_or_ge o₁.length r.length with hlt | hge
      · have hp : o₁ ++ ['/'] <+: r := pre_snoc hws (by
          simp only [List.length_append, List.length_cons, List.length_nil]
          omega)
        have : withSlash o₁ <+: p₀ :=
          hws₁ ▸ ((hp.trans (self_pre_ws r)).trans (hp₀d ▸ hrpre))
        exact hsep p₀ hp₀ o₁ ho₁p (sw_iff.mpr this)
      · have heq : o₁ ++ ['/'] = r ++ ['/'] :=
          hws.eq_of_length (by
            have := hws.length_le
            simp only [List.length_append, List.length_cons, List.length_nil] at this ⊢
            omega)
        have ho₁r : o₁ = r := List.append_cancel_right heq
        have : withSlash o₁ <+: p₀ := by
          rw [ws_of_not_slash (hpns o₁ ho₁p), ho₁r, ← ws_of_not_slash (ho₁r ▸ hpns o₁ ho₁p)]
          exact hp₀d ▸ hrpre
        exact hsep p₀ hp₀ o₁ ho₁p (sw_iff.mpr this)
  · obtain ⟨r₁, hr₁d, rfl⟩ := compress_wild_shape hw₁
    have hws₁ : withSlash (r₁ ++ ['/']) = r₁ ++ ['/'] :=
      ws_of_slash (ew_iff.mpr ⟨r₁, rfl⟩)
    rcases compress_mem_iff.mp h₂ with hr₂ | hw₂
    · -- o₂ individually listed, nested below the wildcard r₁ ++ ['/']
      have ho₂p : o₂ ∈ paths := compress_rem_sub hr₂
      have hws₂ : withSlash o₂ = o₂ ++ ['/'] := ws_of_not_slash (hpns o₂ ho₂p)
      rw [hws₁, hws₂] at hws
      rcases Nat.lt_or_ge r₁.length o₂.length with hlt | hge
      · have hpre : r₁ ++ ['/'] <+: o₂ := pre_snoc hws (by
          simp only [List.length_append, List.length_cons, List.length_nil]
          omega)
        obtain ⟨k, hk, hck⟩ := he₂
        rcases covers_iff.mp hck with rfl | hframe
        · -- the on-disk witness is o₂ itself, a disk file below the wildcard
          refine compress_wild_rem hw₁ hk ?_ hr₂
          rw [wildWalk_snoc]
          exact sw_iff.mpr ((ws_pre_snoc r₁).trans hpre)
        · -- the witness lies below o₂, hence below the wildcard
          have hkw : str_startswith k (wildWalk (r₁ ++ ['/'])) = true := by
            rw [wildWalk_snoc]
            exact sw_iff.mpr
              ((ws_pre_snoc r₁).trans (hpre.trans ((self_pre_ws o₂).trans hframe)))
          exact hsep k (compress_wild_cond hw₁ hk hkw) o₂ ho₂p
            (sw_iff.mpr (hws₂ ▸ hframe))
      · -- equal length: the wildcard root is the listed path itself
        have heq : r₁ ++ ['/'] = o₂ ++ ['/'] :=
          hws.eq_of_length (by
            have := hws.length_le
            simp only [List.length_append, List.length_cons, List.length_nil] at this ⊢
            omega)
        have hro : r₁ = o₂ := List.append_cancel_right heq
        obtain ⟨p₀, hp₀, hp₀d⟩ := List.mem_map.mp hr₁d
        have hrpre : withSlash (os_path_dirname p₀) <+: p₀ :=
          dirname_ws_pre (dirname_ne_nil (habs p₀ hp₀))
        have hfin : withSlash o₂ <+: p₀ := by
          rw [← hro, ← hp₀d]
          exact hrpre
        exact hsep p₀ hp₀ o₂ ho₂p (sw_iff.mpr hfin)
    · -- two wildcards never nest
      obtain ⟨r₂, _, rfl⟩ := compress_wild_shape hw₂
      rw [hws₁, ws_of_slash (ew_iff.mpr ⟨r₂, rfl⟩)] at hws
      exact hne (compress_NoNest disk paths _ hw₁ _ hw₂ hws)

/-- Two distinct entries of the compressor's output that both occupy
something on disk have disjoint cover sets, given a plan of pairwise
unrelated absolute file paths. -/
lemma compress_pair_disjoint {disk paths : List Str} {o₁ o₂ : Str}
    (habs : ∀ p ∈ paths, str_startswith p ['/'] = true)
    (hpns : ∀ p ∈ paths, ¬ str_endswith p ['/'] = true)
    (hsep : ∀ p ∈ paths, ∀ q ∈ paths, ¬ str_startswith p (withSlash q) = true)
    (h₁ : o₁ ∈ compress_for_rename disk paths)
    (h₂ : o₂ ∈ compress_for_rename disk paths)
    (hne : o₁ ≠ o₂)
    (he₁ : ∃ k ∈ disk, covers o₁ k = true)
    (he₂ : ∃ k ∈ disk, covers o₂ k = true)
    (x : Str) : ¬ (covers o₁ x = true ∧ covers o₂ x = true) := by
  rintro ⟨hc₁, hc₂⟩
  rcases covers_overlap hc₁ hc₂ with hws | hws
  · exact compress_pair_aux habs hpns hsep h₁ h₂ hne he₂ hws
  · exact compress_pair_aux habs hpns hsep h₂ h₁ (Ne.symm hne) he₁ hws

end PairDisjoint

section StashInvariants

/-- Invariants of the `_stash_files` loop state relative to the snapshot
`fs₁` it started from and the compressed rename set `out`: the working
snapshot shrinks from `fs₁`; every stash record holds files of `fs₁` that lie
in its own entry's cover set and have left the working snapshot for good;
stashed entries come from the rename set, occupied something on disk, and
have pairwise disjoint cover sets; files leave the snapshot only when some
rename-set entry covers them. -/
structure SInv (fs₁ : FS) (out : List Str) (s : FS × List (Str × FS)) : Prop where
  fsub : List.Sublist s.1 fs₁
  esub : ∀ e ∈ s.2, List.Sublist e.2 fs₁
  ccover : ∀ e ∈ s.2, ∀ kv ∈ e.2, covers e.1 kv.1 = true
  removed : ∀ e ∈ s.2, ∀ kv ∈ s.1, ¬ covers e.1 kv.1 = true
  olds_out : ∀ e ∈ s.2, e.1 ∈ out
  olds_wit : ∀ e ∈ s.2, ∃ k ∈ fs_keys fs₁, covers e.1 k = true
  disj : s.2.Pairwise (fun e₁ e₂ => ∀ x, ¬ (covers e₁.1 x = true ∧ covers e₂.1 x = true))
  rem_zero : ∀ kv ∈ fs₁, kv ∈ s.1 ∨ ∃ o ∈ out, covers o kv.1 = true

lemma stash_step_inv {fs₁ : FS} {paths : List Str} {pfx o : Str}
    {s s' : FS × List (Str × FS)}
    (habs : ∀ p ∈ paths, str_startswith p ['/'] = true)
    (hpns : ∀ p ∈ paths, ¬ str_endswith p ['/'] = true)
    (hsep : ∀ p ∈ paths, ∀ q ∈ paths, ¬ str_startswith p (withSlash q) = true)
    (ho : o ∈ compress_for_rename (fs_keys fs₁) paths)
    (hstep : stash_step pfx (some s) o = some s')
    (hinv : SInv fs₁ (compress_for_rename (fs_keys fs₁) paths) s) :
    SInv fs₁ (compress_for_rename (fs_keys fs₁) paths) s' := by
  obtain ⟨sfs, sst⟩ := s
  unfold stash_step at hstep
  dsimp only at hstep
  split at hstep
  · -- the entry does not exist on disk: nothing changes
    cases hstep
    exact hinv
  · next hex =>
    have hexists : fs_exists sfs o = true := not_not.mp hex
    obtain ⟨k₀, hk₀, hck₀⟩ := fs_exists_extract hexists
    have hk₀fs : ∃ c, (k₀, c) ∈ sfs := by
      obtain ⟨e, he, hk⟩ := List.mem_map.mp hk₀
      exact ⟨e.2, by rw [← hk]; exact he⟩
    split at hstep
    · -- .pyc branch
      split at hstep
      · split at hstep
        · -- unlinked, outside the prefix: skipped
          cases hstep
          refine ⟨?_, hinv.esub, hinv.ccover, ?_, hinv.olds_out, hinv.olds_wit,
            hinv.disj, ?_⟩
          · exact (List.filter_sublist sfs).trans hinv.fsub
          · intro e he kv hkv
            exact hinv.removed e he kv (List.mem_of_mem_filter hkv)
          · intro kv hkv
            rcases hinv.rem_zero kv hkv with hmem | hcov
            · by_cases hko : kv.1 = o
              · exact Or.inr ⟨o, ho, hko ▸ covers_self⟩
              · exact Or.inl (List.mem_filter.mpr ⟨hmem, by simpa using hko⟩)
            · exact Or.inr hcov
        · -- unlinked below the prefix: renames() raises
          exact absurd hstep (by simp)
      · exact absurd hstep (by simp)
    · -- regular entry
      split at hstep
      · -- outside the prefix: skipped
        cases hstep
        exact hinv
      · -- renamed into the stash
        cases hstep
        have hwit : ∃ k ∈ fs_keys fs₁, covers o k = true :=
          ⟨k₀, (keys_sublist_of_sublist hinv.fsub).mem hk₀, hck₀⟩
        have hnew_ne : ∀ e ∈ sst, e.1 ≠ o := by
          intro e he heq
          obtain ⟨c, hc⟩ := hk₀fs
          exact hinv.removed e he (k₀, c) hc (heq ▸ hck₀)
        refine ⟨?_, ?_, ?_, ?_, ?_, ?_, ?_, ?_⟩
        · exact (List.filter_sublist sfs).trans hinv.fsub
        · intro e he
          rcases List.mem_append.mp he with he' | he'
          · exact hinv.esub e he'
          · rw [List.mem_singleton.mp he']
            exact (List.filter_sublist sfs).trans hinv.fsub
        · intro e he kv hkv
          rcases List.mem_append.mp he with he' | he'
          · exact hinv.ccover e he' kv hkv
          · rw [List.mem_singleton.mp he'] at hkv ⊢
            exact (List.mem_filter.mp hkv).2
        · intro e he kv hkv
          rcases List.mem_append.mp he with he' | he'
          · exact hinv.removed e he' kv (List.mem_of_mem_filter hkv)
          · rw [List.mem_singleton.mp he']
            have h2 := (List.mem_filter.mp hkv).2
            simpa using h2
        · intro e he
          rcases List.mem_append.mp he with he' | he'
          · exact hinv.olds_out e he'
          · rw [List.mem_singleton.mp he']
            exact ho
        · intro e he
          rcases List.mem_append.mp he with he' | he'
          · exact hinv.olds_wit e he'
          · rw [List.mem_singleton.mp he']
            exact hwit
        · rw [List.pairwise_append]
          refine ⟨hinv.disj, List.pairwise_singleton _ _, ?_⟩
          intro e he e' he'
          rw [List.mem_singleton.mp he']
          exact compress_pair_disjoint habs hpns hsep (hinv.olds_out e he) ho
            (hnew_ne e he) (hinv.olds_wit e he) hwit
        · intro kv hkv
          rcases hinv.rem_zero kv hkv with hmem | hcov
          · by_cases hko : covers o kv.1 = true
            · exact Or.inr ⟨o, ho, hko⟩
            · exact Or.inl (List.mem_filter.mpr ⟨hmem, by simpa using hko⟩)
          · exact Or.inr hcov

lemma stash_fold_none {pfx : Str} : ∀ L : List Str, L.foldl (stash_step pfx) none = none
  | [] => rfl
  | _ :: t => stash_fold_none t

lemma stash_fold_inv {fs₁ : FS} {paths : List Str} {pfx : Str}
    (habs : ∀ p ∈ paths, str_startswith p ['/'] = true)
    (hpns : ∀ p ∈ paths, ¬ str_endswith p ['/'] = true)
    (hsep : ∀ p ∈ paths, ∀ q ∈ paths, ¬ str_startswith p (withSlash q) = true) :
    ∀ (L : List Str) (s s' : FS × List (Str × FS)),
      (∀ o ∈ L, o ∈ compress_for_rename (fs_keys fs₁) paths) →
      L.foldl (stash_step pfx) (some s) = some s' →
      SInv fs₁ (compress_for_rename (fs_keys fs₁) paths) s →
      SInv fs₁ (compress_for_rename (fs_keys fs₁) paths) s'
  | [], _, _, _, hfold, hinv => by
    cases hfold
    exact hinv
  | a :: t, s, s', hL, hfold, hinv => by
    rw [List.foldl_cons] at hfold
    rcases hstep : stash_step pfx (some s) a with _ | s₁
    · rw [hstep, stash_fold_none t] at hfold
      exact absurd hfold (by simp)
    · rw [hstep] at hfold
      exact stash_fold_inv habs hpns hsep t s₁ s'
        (fun o hot => hL o (List.mem_cons_of_mem a hot)) hfold
        (stash_step_inv habs hpns hsep (hL a (List.mem_cons_self a t)) hstep hinv)

lemma stash_files_inv {fs₁ fs₂ : FS} {paths : List Str} {pfx : Str}
    {stash : List (Str × FS)}
    (habs : ∀ p ∈ paths, str_startswith p ['/'] = true)
    (hpns : ∀ p ∈ paths, ¬ str_endswith p ['/'] = true)
    (hsep : ∀ p ∈ paths, ∀ q ∈ paths, ¬ str_startswith p (withSlash q) = true)
    (h : _stash_files pfx fs₁ paths = some (fs₂, stash)) :
    SInv fs₁ (compress_for_rename (fs_keys fs₁) paths) (fs₂, stash) := by
  unfold _stash_files at h
  refine stash_fold_inv habs hpns hsep _ (fs₁, []) (fs₂, stash) (fun o ho => ho) h ?_
  exact ⟨List.Sublist.refl fs₁,
    fun e he => absurd he (List.not_mem_nil e),
    fun e he => absurd he (List.not_mem_nil e),
    fun e he => absurd he (List.not_mem_nil e),
    fun e he => absurd he (List.not_mem_nil e),
    fun e he => absurd he (List.not_mem_nil e),
    List.Pairwise.nil,
    fun kv hkv => Or.inl hkv⟩

end StashInvariants

section RollbackLemmas

lemma roll_keeps :
    ∀ (S : List (Str × FS)) (acc : FS) (kv : Str × Str),
      kv ∈ acc → (∀ e ∈ S, ¬ covers e.1 kv.1 = true) →
      kv ∈ S.foldl (fun acc e => acc.filter (fun kv => ¬ covers e.1 kv.1) ++ e.2) acc
  | [], _, _, hm, _ => hm
  | a :: t, acc, kv, hm, hnc => by
    rw [List.foldl_cons]
    refine roll_keeps t _ kv ?_ (fun e he => hnc e (List.mem_cons_of_mem a he))
    refine List.mem_append.mpr (Or.inl (List.mem_filter.mpr ⟨hm, ?_⟩))
    simpa using hnc a (List.mem_cons_self a t)

lemma roll_adds :
    ∀ (S : List (Str × FS)) (acc : FS) (e : Str × FS) (kv : Str × Str),
      e ∈ S → kv ∈ e.2 →
      S.Pairwise (fun e₁ e₂ => ∀ x, ¬ (covers e₁.1 x = true ∧ covers e₂.1 x = true)) →
      (∀ e' ∈ S, ∀ kv' ∈ e'.2, covers e'.1 kv'.1 = true) →
      kv ∈ S.foldl (fun acc e => acc.filter (fun kv => ¬ covers e.1 kv.1) ++ e.2) acc
  | [], _, e, _, he, _, _, _ => absurd he (List.not_mem_nil e)
  | a :: t, acc, e, kv, he, hkv, hpw, hcc => by
    rw [List.foldl_cons]
    rcases List.mem_cons.mp he with rfl | het
    · refine roll_keeps t _ kv (List.mem_append.mpr (Or.inr hkv)) ?_
      intro e' he' hcov
      have hcov_a : covers e.1 kv.1 = true := hcc e (List.mem_cons_self e t) kv hkv
      exact (List.pairwise_cons.mp hpw).1 e' he' kv.1 ⟨hcov_a, hcov⟩
    · exact roll_adds t _ e kv het hkv (List.pairwise_cons.mp hpw).2
        (fun e' he' => hcc e' (List.mem_cons_of_mem a he'))

lemma roll_no_new :
    ∀ (S : List (Str × FS)) (acc : FS) (p : Str),
      p ∉ fs_keys acc → (∀ e ∈ S, ∀ kv ∈ e.2, kv.1 ≠ p) →
      p ∉ fs_keys (S.foldl (fun acc e => acc.filter (fun kv => ¬ covers e.1 kv.1) ++ e.2) acc)
  | [], _, _, h, _ => h
  | a :: t, acc, p, h, hno => by
    rw [List.foldl_cons]
    refine roll_no_new t _ p ?_ (fun e he => hno e (List.mem_cons_of_mem a he))
    intro hmem
    unfold fs_keys at hmem
    rw [List.map_append, List.mem_append] at hmem
    rcases hmem with h1 | h1
    · refine h ?_
      obtain ⟨e, he, hk⟩ := List.mem_map.mp h1
      exact hk ▸ List.mem_map_of_mem (fun e => e.1) (List.mem_of_mem_filter he)
    · obtain ⟨e, he, hk⟩ := List.mem_map.mp h1
      exact hno a (List.mem_cons_self a t) e he hk

lemma roll_nodup :
    ∀ (S : List (Str × FS)) (acc : FS),
      (fs_keys acc).Nodup →
      (∀ e ∈ S, ∀ kv ∈ e.2, covers e.1 kv.1 = true) →
      (∀ e ∈ S, (fs_keys e.2).Nodup) →
      (fs_keys (S.foldl (fun acc e => acc.filter (fun kv => ¬ covers e.1 kv.1) ++ e.2) acc)).Nodup
  | [], _, h, _, _ => h
  | a :: t, acc, h, hcc, hnd => by
    rw [List.foldl_cons]
    refine roll_nodup t _ ?_ (fun e he => hcc e (List.mem_cons_of_mem a he))
      (fun e he => hnd e (List.mem_cons_of_mem a he))
    unfold fs_keys
    rw [List.map_append, List.nodup_append]
    refine ⟨h.sublist ((List.filter_sublist acc).map (fun e => e.1)),
      hnd a (List.mem_cons_self a t), ?_⟩
    intro q hq hq2
    obtain ⟨e, he, hk⟩ := List.mem_map.mp hq
    obtain ⟨e', he', hk'⟩ := List.mem_map.mp hq2
    have hno := (List.mem_filter.mp he).2
    simp only [decide_eq_true_iff] at hno
    have hyes := hcc a (List.mem_cons_self a t) e' he'
    rw [hk'] at hyes
    rw [hk] at hno
    exact hno hyes

end RollbackLemmas

section RemovePthLemmas

lemma remove_pth_cases {pthf : Str} {entries : List Str} {fs : FS} {sv : Option Str}
    {fs₁ : FS} (h : _remove_pth pthf entries fs = some (sv, fs₁)) :
    (sv = none ∧ fs₁ = fs)
    ∨ ∃ s₀ c₁, sv = some s₀ ∧ fs_lookup fs pthf = some s₀ ∧ fs₁ = fs_write fs pthf c₁ := by
  unfold _remove_pth at h
  split at h
  · cases h
    exact Or.inl ⟨rfl, rfl⟩
  · rcases hlk : fs_lookup fs pthf with _ | s₀ <;> rw [hlk] at h
    · exact absurd h (by simp)
    · dsimp only at h
      rcases hrm : entries.foldlM (fun lines item => list_remove lines item)
          (str_splitlines s₀) with _ | lines <;> rw [hrm] at h
      · exact absurd h (by simp)
      · cases h
        right
        exact ⟨s₀, _, rfl, rfl, rfl⟩

lemma fs_write_keys_iff {fs : FS} {p c : Str} (hp : p ∈ fs_keys fs) (q : Str) :
    q ∈ fs_keys (fs_write fs p c) ↔ q ∈ fs_keys fs := by
  rw [fs_write_keys_mem]
  constructor
  · rintro (⟨h1, _⟩ | rfl)
    · exact h1
    · exact hp
  · intro h1
    by_cases hq : q = p
    · exact Or.inr hq
    · exact Or.inl ⟨h1, hq⟩

/-- No entry of the compressed rename set covers the registry file, as long
as no plan path does and the registry file is a real file of the snapshot. -/
lemma out_not_covers_pth {fs₁ : FS} {paths : List Str} {pthf : Str}
    (hpthfree : ∀ p ∈ paths, ¬ covers p pthf = true)
    (hpthns : ¬ str_endswith pthf ['/'] = true)
    (hpthkeys : pthf ∈ fs_keys fs₁) :
    ∀ o ∈ compress_for_rename (fs_keys fs₁) paths, ¬ covers o pthf = true := by
  intro o ho hcov
  rcases compress_mem_iff.mp ho with hrem | hwild
  · exact hpthfree o (compress_rem_sub hrem) hcov
  · obtain ⟨r, _, rfl⟩ := compress_wild_shape hwild
    rcases covers_iff.mp hcov with heq | hpre
    · exact hpthns (heq ▸ ew_iff.mpr ⟨r, rfl⟩)
    · rw [ws_of_slash (ew_iff.mpr ⟨r, rfl⟩)] at hpre
      have hpre' : str_startswith pthf (wildWalk (r ++ ['/'])) = true := by
        rw [wildWalk_snoc]
        exact sw_iff.mpr ((ws_pre_snoc r).trans hpre)
      exact hpthfree pthf (compress_wild_cond hwild hpthkeys hpre') covers_self

end RemovePthLemmas

section ClaimC1

/-- C1 as stated is false: when the removal plan's path set contains the
linkage registry file itself, the stash step first rewrites the registry
(dropping the plan's lines) and then stashes the rewritten file; rollback
restores the saved original bytes but immediately overwrites them by moving
the stashed — already truncated — copy back, so the registry ends with the
truncated bytes, not the original ones. -/
theorem stash_rollback_counterexample :
    (remove
        ⟨["/e/l/easy-install.pth".data], ["/src/foo".data],
          "/e/l/easy-install.pth".data, "/e".data⟩
        [("/e/l/easy-install.pth".data, "/src/foo\nkeep\n".data),
         ("/e/l/other.py".data, "O".data)]).map
        (fun r => fs_lookup (rollback r.1 r.2) "/e/l/easy-install.pth".data)
      = some (some "keep\n".data)
    ∧ fs_lookup
        [("/e/l/easy-install.pth".data, "/src/foo\nkeep\n".data),
         ("/e/l/other.py".data, "O".data)] "/e/l/easy-install.pth".data
      = some "/src/foo\nkeep\n".data :=
  ⟨by decide, by decide⟩

/-- C1 amended: for a well-formed snapshot and a removal plan of pairwise
unrelated absolute file paths none of which equals or contains the registry
file, if the stash step succeeds and actually stashed something, then
rollback restores every stashed file's bytes — which are its original bytes —
at its original path, and the registry file holds its original bytes. -/
theorem stash_rollback_roundtrip (plan : RemovePlan) (fs : FS) (st : StashState) (fs' : FS)
    (hWF : FSWellFormed fs)
    (habs : ∀ p ∈ plan.paths, str_startswith p ['/'] = true)
    (hpns : ∀ p ∈ plan.paths, ¬ str_endswith p ['/'] = true)
    (hsep : ∀ p ∈ plan.paths, ∀ q ∈ plan.paths, ¬ str_startswith p (withSlash q) = true)
    (hpthfree : ∀ p ∈ plan.paths, ¬ covers p plan.pth_file = true)
    (hpthns : ¬ str_endswith plan.pth_file ['/'] = true)
    (hres : remove plan fs = some (st, fs'))
    (hstash : st.stashed ≠ []) :
    (∀ e ∈ st.stashed, ∀ kv ∈ e.2,
        fs_lookup (rollback st fs') kv.1 = some kv.2 ∧ fs_lookup fs kv.1 = some kv.2)
    ∧ fs_lookup (rollback st fs') plan.pth_file = fs_lookup fs plan.pth_file := by
  unfold remove at hres
  rcases hpth : _remove_pth plan.pth_file plan.pth_entries fs with _ | pr <;>
    rw [hpth] at hres
  · exact absurd hres (by simp)
  obtain ⟨sv, fs₁⟩ := pr
  dsimp only at hres
  rcases hstf : _stash_files plan.pfx fs₁ plan.paths with _ | sr <;> rw [hstf] at hres
  · exact absurd hres (by simp)
  obtain ⟨fs₂, stash⟩ := sr
  dsimp only at hres
  cases hres
  dsimp only at hstash ⊢
  have hcases := remove_pth_cases hpth
  have hSInv : SInv fs₁ (compress_for_rename (fs_keys fs₁) plan.paths) (fs', stash) :=
    stash_files_inv habs hpns hsep hstf
  have hWF₁ : FSWellFormed fs₁ := by
    rcases hcases with ⟨_, rfl⟩ | ⟨s₀, c₁, _, hlk, heq⟩
    · exact hWF
    · exact heq ▸ fs_write_WF hWF (fs_lookup_mem_keys hlk)
  have hkeys₁ : ∀ q, q ∈ fs_keys fs₁ ↔ q ∈ fs_keys fs := by
    rcases hcases with ⟨_, rfl⟩ | ⟨s₀, c₁, _, hlk, heq⟩
    · exact fun q => Iff.rfl
    · exact fun q => heq ▸ fs_write_keys_iff (fs_lookup_mem_keys hlk) q
  have hnd₁ : (fs_keys fs₁).Nodup := hWF₁.1
  have hnd₂ : (fs_keys fs').Nodup := hnd₁.sublist (keys_sublist_of_sublist hSInv.fsub)
  have hend : ∀ e ∈ stash, (fs_keys e.2).Nodup :=
    fun e he => hnd₁.sublist (keys_sublist_of_sublist (hSInv.esub e he))
  have houtnc : plan.pth_file ∈ fs_keys fs →
      ∀ o ∈ compress_for_rename (fs_keys fs₁) plan.paths,
        ¬ covers o plan.pth_file = true :=
    fun hmem => out_not_covers_pth hpthfree hpthns ((hkeys₁ _).mpr hmem)
  have hstash_nc : plan.pth_file ∈ fs_keys fs →
      ∀ e ∈ stash, ¬ covers e.1 plan.pth_file = true :=
    fun hmem e he => houtnc hmem e.1 (hSInv.olds_out e he)
  have hlook_fs : ∀ e ∈ stash, ∀ kv ∈ e.2, fs_lookup fs kv.1 = some kv.2 := by
    intro e he kv hkv
    have hkv₁ : kv ∈ fs₁ := (hSInv.esub e he).mem hkv
    rcases hcases with ⟨_, rfl⟩ | ⟨s₀, c₁, _, hlk, heq⟩
    · exact fs_lookup_eq_of_mem hWF.1 (by exact hkv₁)
    · rw [heq] at hkv₁
      rcases fs_write_mem.mp hkv₁ with ⟨hmem, _⟩ | hkvp
      · exact fs_lookup_eq_of_mem hWF.1 hmem
      · exfalso
        have hcov : covers e.1 kv.1 = true := hSInv.ccover e he kv hkv
        rw [hkvp] at hcov
        exact houtnc (fs_lookup_mem_keys hlk) e.1 (hSInv.olds_out e he) hcov
  constructor
  · intro e he kv hkv
    refine ⟨?_, hlook_fs e he kv hkv⟩
    rcases hsv : sv with _ | s₀
    · have hroll : rollback ⟨plan.pth_file, none, stash⟩ fs'
          = stash.foldl (fun acc e => acc.filter (fun kv => ¬ covers e.1 kv.1) ++ e.2) fs' := by
        unfold rollback
        rw [if_neg hstash]
      rw [hroll]
      exact fs_lookup_eq_of_mem
        (roll_nodup stash fs' hnd₂ hSInv.ccover hend)
        (roll_adds stash fs' e kv he hkv hSInv.disj hSInv.ccover)
    · have hroll : rollback ⟨plan.pth_file, some s₀, stash⟩ fs'
          = stash.foldl (fun acc e => acc.filter (fun kv => ¬ covers e.1 kv.1) ++ e.2)
              (fs_write fs' plan.pth_file s₀) := by
        unfold rollback
        rw [if_neg hstash]
      rw [hroll]
      exact fs_lookup_eq_of_mem
        (roll_nodup stash _ (fs_write_nodup hnd₂) hSInv.ccover hend)
        (roll_adds stash _ e kv he hkv hSInv.disj hSInv.ccover)
  · rcases hcases with ⟨hsv, heqfs⟩ | ⟨s₀, c₁, hsv, hlk, heqfs⟩
    · subst hsv
      have hroll : rollback ⟨plan.pth_file, none, stash⟩ fs'
          = stash.foldl (fun acc e => acc.filter (fun kv => ¬ covers e.1 kv.1) ++ e.2) fs' := by
        unfold rollback
        rw [if_neg hstash]
      rw [hroll]
      by_cases hpk : plan.pth_file ∈ fs_keys fs
      · obtain ⟨e₀, he₀, hk₀⟩ := List.mem_map.mp hpk
        have he₀fs₁ : e₀ ∈ fs₁ := heqfs ▸ he₀
        rcases hSInv.rem_zero e₀ he₀fs₁ with hmem₂ | ⟨o, ho, hcov⟩
        · have hfinal : e₀ ∈ stash.foldl
              (fun acc e => acc.filter (fun kv => ¬ covers e.1 kv.1) ++ e.2) fs' := by
            refine roll_keeps stash fs' e₀ hmem₂ ?_
            intro e he hcov
            exact hstash_nc hpk e he (hk₀ ▸ hcov)
          rw [show e₀ = (plan.pth_file, e₀.2) from by rw [← hk₀]] at hfinal he₀
          rw [fs_lookup_eq_of_mem (roll_nodup stash fs' hnd₂ hSInv.ccover hend) hfinal,
            fs_lookup_eq_of_mem hWF.1 he₀]
        · exact absurd (hk₀ ▸ hcov) (houtnc hpk o ho)
      · rw [fs_lookup_eq_none hpk, fs_lookup_eq_none]
        refine roll_no_new stash fs' plan.pth_file ?_ ?_
        · intro hmem
          exact hpk ((hkeys₁ _).mp
            ((keys_sublist_of_sublist hSInv.fsub).mem hmem))
        · intro e he kv hkv heq
          refine hpk ?_
          rw [← heq]
          exact (hkeys₁ _).mp (List.mem_map_of_mem (fun e => e.1) ((hSInv.esub e he).mem hkv))
    · subst hsv
      have hroll : rollback ⟨plan.pth_file, some s₀, stash⟩ fs'
          = stash.foldl (fun acc e => acc.filter (fun kv => ¬ covers e.1 kv.1) ++ e.2)
              (fs_write fs' plan.pth_file s₀) := by
        unfold rollback
        rw [if_neg hstash]
      rw [hroll, hlk]
      have hpk : plan.pth_file ∈ fs_keys fs := fs_lookup_mem_keys hlk
      have hfinal : (plan.pth_file, s₀) ∈ stash.foldl
          (fun acc e => acc.filter (fun kv => ¬ covers e.1 kv.1) ++ e.2)
            (fs_write fs' plan.pth_file s₀) := by
        refine roll_keeps stash _ (plan.pth_file, s₀) (fs_write_mem.mpr (Or.inr rfl)) ?_
        intro e he hcov
        exact hstash_nc hpk e he hcov
      exact fs_lookup_eq_of_mem
        (roll_nodup stash _ (fs_write_nodup hnd₂) hSInv.ccover hend) hfinal

/-- Witness for the amended C1 theorem: a whole package directory is
stashed; rollback brings its file back byte-for-byte and the registry gets
its original bytes. -/
theorem stash_rollback_roundtrip_witness :
    (∀ e ∈ ([("/e/l/pkg/".data, [("/e/l/pkg/a.py".data, "A".data)])] : List (Str × FS)),
        ∀ kv ∈ e.2,
        fs_lookup (rollback
            ⟨"/e/l/easy-install.pth".data, some "/src/foo\nkeep\n".data,
              [("/e/l/pkg/".data, [("/e/l/pkg/a.py".data, "A".data)])]⟩
            [("/e/l/other.py".data, "O".data),
             ("/e/l/easy-install.pth".data, "keep\n".data)]) kv.1 = some kv.2
          ∧ fs_lookup
              [("/e/l/easy-install.pth".data, "/src/foo\nkeep\n".data),
               ("/e/l/pkg/a.py".data, "A".data), ("/e/l/other.py".data, "O".data)]
              kv.1 = some kv.2)
    ∧ fs_lookup (rollback
        ⟨"/e/l/easy-install.pth".data, some "/src/foo\nkeep\n".data,
          [("/e/l/pkg/".data, [("/e/l/pkg/a.py".data, "A".data)])]⟩
        [("/e/l/other.py".data, "O".data),
         ("/e/l/easy-install.pth".data, "keep\n".data)]) "/e/l/easy-install.pth".data
      = fs_lookup
          [("/e/l/easy-install.pth".data, "/src/foo\nkeep\n".data),
           ("/e/l/pkg/a.py".data, "A".data), ("/e/l/other.py".data, "O".data)]
          "/e/l/easy-install.pth".data :=
  stash_rollback_roundtrip
    ⟨["/e/l/pkg/a.py".data], ["/src/foo".data], "/e/l/easy-install.pth".data, "/e".data⟩
    [("/e/l/easy-install.pth".data, "/src/foo\nkeep\n".data),
     ("/e/l/pkg/a.py".data, "A".data), ("/e/l/other.py".data, "O".data)]
    ⟨"/e/l/easy-install.pth".data, some "/src/foo\nkeep\n".data,
      [("/e/l/pkg/".data, [("/e/l/pkg/a.py".data, "A".data)])]⟩
    [("/e/l/other.py".data, "O".data), ("/e/l/easy-install.pth".data, "keep\n".data)]
    ⟨by decide, by decide, by decide⟩ (by decide) (by decide) (by decide) (by decide)
    (by decide) (by rfl) (by decide)

end ClaimC1

example : os_path_split "/a/b".data = ("/a".data, "b".data) := by decide
example : os_path_split "/a".data = ("/".data, "a".data) := by decide
example : os_path_split "a".data = ([], "a".data) := by decide
example : os_path_split "/a//b".data = ("/a".data, "b".data) := by decide
example : os_path_dirname "/e/l/easy-install.pth".data = "/e/l".data := by decide
example : os_path_join2 "/a".data [] = "/a/".data := by decide
example : os_path_join2 "/a".data "b".data = "/a/b".data := by decide
example : os_path_splitext "/a/b.py".data = ("/a/b".data, ".py".data) := by decide
example : os_path_splitext "/a/.foo".data = ("/a/.foo".data, []) := by decide
example : os_path_splitext "/a/b.tar.gz".data = ("/a/b.tar".data, ".gz".data) := by decide
example : str_splitlines "ab\ncd\r\nef".data = ["ab".data, "cd".data, "ef".data] := by decide
example : str_splitlines "ab\n".data = ["ab".data] := by decide
example : str_strip " ab \n".data = "ab".data := by decide
example : path_parts "/a//b/c".data = ["a".data, "b".data, "c".data] := by decide
example :
    compress_for_rename ["/a/b/f".data] ["/a/b/f".data] = ["/a/b/".data] := by decide
example :
    compress_for_rename ["/e/l/a.py".data, "/e/l/keep.py".data] ["/e/l/a.py".data] =
      ["/e/l/a.py".data] := by decide
example :
    compress_for_rename ["/a/f".data, "/a/b/g".data] ["/a/f".data, "/a/b/g".data] =
      ["/a/".data] := by decide
example :
    compress_for_rename ["/a/f".data, "/a/b/g".data, "/a/h".data]
      ["/a/f".data, "/a/b/g".data] = ["/a/f".data, "/a/b/".data] := by decide

-- C4 scenario: a .pyc below the prefix makes the stash step raise
example :
    _stash_files "/env".data
      [("/env/lib/a.pyc".data, "x".data), ("/env/lib/keep.py".data, "y".data)]
      ["/env/lib/a.pyc".data] = none := by rfl

-- C1 scenario: registry file in the plan's path set; rollback leaves the
-- truncated registry bytes, not the original ones
example :
    (remove
      ⟨["/e/l/easy-install.pth".data], ["/src/foo".data], "/e/l/easy-install.pth".data, "/e".data⟩
      [("/e/l/easy-install.pth".data, "/src/foo\nkeep\n".data), ("/e/l/other.py".data, "O".data)]).map
      (fun r => fs_lookup (rollback r.1 r.2) "/e/l/easy-install.pth".data)
      = some (some "keep\n".data) := by decide

-- happy-path round trip
example :
    (remove
      ⟨["/e/l/pkg/a.py".data], ["/src/foo".data], "/e/l/easy-install.pth".data, "/e".data⟩
      [("/e/l/easy-install.pth".data, "/src/foo\nkeep\n".data),
       ("/e/l/pkg/a.py".data, "A".data), ("/e/l/other.py".data, "O".data)]).map
      (fun r => (fs_lookup (rollback r.1 r.2) "/e/l/easy-install.pth".data,
                 fs_lookup (rollback r.1 r.2) "/e/l/pkg/a.py".data))
      = some (some "/src/foo\nkeep\n".data, some "A".data) := by decide

-- C5 scenario: nothing stashed, rollback is a no-op
example :
    rollback ⟨"/e/l/easy-install.pth".data, none, []⟩ [("/a".data, "x".data)]
      = [("/a".data, "x".data)] := by decide

-- C3 scenario: two .dist-info directories resolve to the first, no error
example :
    dist_info_dir ["a.dist-info/x".data, "b.dist-info/y".data] = some "a.dist-info".data := by
  decide

-- C9 scenario: mismatching egg-link pointer aborts
example :
    (from_dist [("/e/l/demo.egg-link".data, "/src/other\n.".data)]
      "/e/l".data "/e/bin".data
      ⟨"demo".data, "/src/demo".data, true, [], false, [], [], []⟩).isOk = false := by decide

-- editable happy path: egg link and pth entry recorded
example :
    from_dist [("/e/l/demo.egg-link".data, "/src/demo\n.".data)]
      "/e/l".data "/e/bin".data
      ⟨"demo".data, "/src/demo".data, true, [], false, [], ["demo-cli".data], []⟩
      = .ok ⟨["/e/l/demo.egg-link".data, "/e/bin/demo-cli".data], ["/src/demo".data], none⟩ := by
  rfl
